import Mathlib

/-! learncpp: sort a fixed vector of integers and print it.

A shallow embedding of `src/main.cpp`:

```
int main() {
    std::vector<int> numbers = {3, 1, 4, 1, 5, 9, 2, 6, 5, 3, 5};
    std::sort(numbers.begin(), numbers.end(), [](int x, int y) { return x < y; });
    std::for_each(numbers.begin(), numbers.end(), [](int num) {
        std::cout << num << " ";
    });
}
```

* the vector is a `List Int`;
* the comparator lambda is `comp`;
* `std::sort` is a library routine whose body is not part of the repository; it is
  embedded from libstdc++ (`bits/stl_algo.h`, `bits/stl_heap.h`), routine by routine:
  `__sort` runs `__introsort_loop` with depth limit `2 * __lg(n)` and then
  `__final_insertion_sort`.  A range of at most sixteen elements, such as the eleven
  elements of `numbers`, passes the first untouched and is sorted by `__insertion_sort`;
  a longer one is first cut by `__unguarded_partition_pivot`, or heap sorted by
  `__partial_sort` once the depth limit is used up, and finished by
  `__unguarded_insertion_sort`.  A range `[first, last)` is a `List Int` and an iterator
  `first + i` the offset `i`; a call on a part of the range is a call on that part of the
  list.  Every read or write through an iterator that leaves the range, which the C++ code
  does not check for, makes the routine return `none`, and so does a loop that runs out
  of the steps it is given.  The result of the sort is the only ordered permutation of
  the input (`sort_eq_of_sorted_perm`);
* `std::cout` is a trace of stream insertions (`OStream`), oldest first; the text written
  is the concatenation of the trace.  The insertions fill the buffer of standard output,
  which is written out when it is full and when the run ends (`systemWrites`);
* `operator<<(int)` is decimal formatting (`formatInt`): an optional minus sign and the
  digits, most significant first;
* `main` has no `return`, so it ends with exit status `0`.
-/

namespace LearnCpp

/-! ## The sequence and the comparator -/

/-- The vector literal of `main`: `{3, 1, 4, 1, 5, 9, 2, 6, 5, 3, 5}`. -/
def numbers : List Int := [3, 1, 4, 1, 5, 9, 2, 6, 5, 3, 5]

/-- The comparator lambda `[](int x, int y) { return x < y; }`. -/
def comp (x y : Int) : Bool := decide (x < y)

/-! ## `std::sort` -/

/-- The loop of `__unguarded_linear_insert`: `val` travels from the right end of the
already ordered range towards its front while `cmp val next` holds, each passed element
moving one place to the right.  The range is given back to front (its last element is the
head of the list) and so is the result.  The empty case is the loop stepping before the
first element, which the C++ code does not check for: `none`. -/
def unguardedLinearInsert (cmp : Int → Int → Bool) (val : Int) : List Int → Option (List Int)
  | [] => none
  | next :: before =>
    if cmp val next then (unguardedLinearInsert cmp val before).map (fun r => next :: r)
    else some (val :: next :: before)

/-- One round of the loop of `__insertion_sort`: place `val` into the ordered range `pre`
that precedes it.  When `cmp val first` holds the whole range is moved one place to the
right and `val` becomes the first element; otherwise the unguarded insertion runs. -/
def linearInsert (cmp : Int → Int → Bool) (pre : List Int) (val : Int) : Option (List Int) :=
  match pre with
  | [] => some [val]
  | first :: _ =>
    if cmp val first then some (val :: pre)
    else (unguardedLinearInsert cmp val pre.reverse).map List.reverse

/-- The loop `for (i = first + 1; i != last; ++i)` of `__insertion_sort`: `pre` is the
range before `i`, the second list the elements from `i` on. -/
def insertionSortLoop (cmp : Int → Int → Bool) : List Int → List Int → Option (List Int)
  | pre, [] => some pre
  | pre, val :: rest => (linearInsert cmp pre val).bind (fun p => insertionSortLoop cmp p rest)

/-- The routine `__insertion_sort(first, last, comp)`; an empty range returns at once. -/
def insertionSort (cmp : Int → Int → Bool) : List Int → Option (List Int)
  | [] => some []
  | x :: xs => insertionSortLoop cmp [x] xs

/-- The constant `_S_threshold`. -/
def threshold : Nat := 16

/-- The loop `for (i = first; i != last; ++i)` of `__unguarded_insertion_sort`, every
round an unguarded insertion: `pre` is the range before `i`, back to the first element of
the whole range, the second list the elements from `i` on. -/
def unguardedInsertionSortLoop (cmp : Int → Int → Bool) : List Int → List Int → Option (List Int)
  | pre, [] => some pre
  | pre, val :: rest =>
    ((unguardedLinearInsert cmp val pre.reverse).map List.reverse).bind
      (fun p => unguardedInsertionSortLoop cmp p rest)

/-- The routine `__final_insertion_sort(first, last, comp)`: above `_S_threshold` elements
an insertion sort of the first `_S_threshold` and an unguarded one of the rest. -/
def finalInsertionSort (cmp : Int → Int → Bool) (xs : List Int) : Option (List Int) :=
  if xs.length > threshold then
    (insertionSort cmp (xs.take threshold)).bind
      (fun pre => unguardedInsertionSortLoop cmp pre (xs.drop threshold))
  else insertionSort cmp xs

/-- A write through an iterator, `*(first + i) = v`; `none` outside the range. -/
def store (h : List Int) (i : Nat) (v : Int) : Option (List Int) :=
  if i < h.length then some (h.set i v) else none

/-- The call `std::iter_swap(first + i, first + j)`; `none` outside the range. -/
def iterSwap (h : List Int) (i j : Nat) : Option (List Int) :=
  match h[i]?, h[j]? with
  | some x, some y => some ((h.set i y).set j x)
  | _, _ => none

/-- The routine `__push_heap(first, holeIndex, topIndex, value, comp)`: the hole climbs
while it is below `topIndex` and its parent is less than `value`, then takes `value`.
The first argument bounds the rounds of the loop. -/
def pushHeap (cmp : Int → Int → Bool) (topIndex : Nat) (value : Int) :
    Nat → List Int → Nat → Option (List Int)
  | 0, _, _ => none
  | fuel + 1, h, holeIndex =>
    let parent := (holeIndex - 1) / 2
    if holeIndex > topIndex then
      match h[parent]? with
      | none => none
      | some p =>
        if cmp p value then
          (store h holeIndex p).bind (fun h1 => pushHeap cmp topIndex value fuel h1 parent)
        else store h holeIndex value
    else store h holeIndex value

/-- The loop `while (secondChild < (len - 1) / 2)` of `__adjust_heap`: the hole sinks to
the child that is not the lesser one.  At each test of the loop `secondChild` equals
`holeIndex`, so one offset stands for both.  The first argument bounds the rounds. -/
def adjustHeapDown (cmp : Int → Int → Bool) (len : Nat) :
    Nat → List Int → Nat → Option (List Int × Nat)
  | 0, _, _ => none
  | fuel + 1, h, holeIndex =>
    if holeIndex < (len - 1) / 2 then
      let secondChild := 2 * (holeIndex + 1)
      match h[secondChild]?, h[secondChild - 1]? with
      | some x, some y =>
        let child := if cmp x y then secondChild - 1 else secondChild
        match h[child]? with
        | none => none
        | some v => (store h holeIndex v).bind (fun h1 => adjustHeapDown cmp len fuel h1 child)
      | _, _ => none
    else some (h, holeIndex)

/-- The routine `__adjust_heap(first, holeIndex, len, value, comp)`: the loop above, the
step for a last parent with a single child when `len` is even, then `__push_heap` with
`topIndex` the offset the hole started from.  The routine is only ever called with
`len` at least 1, where the natural-number `(len - 2) / 2` is the C++ value. -/
def adjustHeap (cmp : Int → Int → Bool) (h : List Int) (holeIndex len : Nat) (value : Int) :
    Option (List Int) :=
  (adjustHeapDown cmp len (len + 1) h holeIndex).bind (fun (h1, hole1) =>
    if len % 2 = 0 ∧ hole1 = (len - 2) / 2 then
      let secondChild := 2 * (hole1 + 1)
      match h1[secondChild - 1]? with
      | none => none
      | some v =>
        (store h1 hole1 v).bind (fun h2 =>
          pushHeap cmp holeIndex value (len + 1) h2 (secondChild - 1))
    else pushHeap cmp holeIndex value (len + 1) h1 hole1)

/-- The routine `__pop_heap(first, last, result)`, `last` and `result` as offsets. -/
def popHeap (cmp : Int → Int → Bool) (h : List Int) (last result : Nat) : Option (List Int) :=
  match h[result]?, h[0]? with
  | some value, some top => (store h result top).bind (fun h1 => adjustHeap cmp h1 0 last value)
  | _, _ => none

/-- The loop of `__make_heap`, counting `parent` down to `0`. -/
def makeHeapLoop (cmp : Int → Int → Bool) (len : Nat) : Nat → List Int → Option (List Int)
  | 0, h =>
    match h[0]? with
    | none => none
    | some value => adjustHeap cmp h 0 len value
  | parent + 1, h =>
    match h[parent + 1]? with
    | none => none
    | some value => (adjustHeap cmp h (parent + 1) len value).bind (makeHeapLoop cmp len parent)

/-- The routine `__make_heap(first, last)` with `len = last - first`. -/
def makeHeap (cmp : Int → Int → Bool) (h : List Int) (len : Nat) : Option (List Int) :=
  if len < 2 then some h else makeHeapLoop cmp len ((len - 2) / 2) h

/-- The loop of `__heap_select`: `n` elements from offset `i` on remain to be looked at. -/
def heapSelectLoop (cmp : Int → Int → Bool) (middle : Nat) : Nat → List Int → Nat → Option (List Int)
  | 0, h, _ => some h
  | n + 1, h, i =>
    match h[i]?, h[0]? with
    | some x, some top =>
      if cmp x top then (popHeap cmp h middle i).bind (fun h1 => heapSelectLoop cmp middle n h1 (i + 1))
      else heapSelectLoop cmp middle n h (i + 1)
    | _, _ => none

/-- The routine `__heap_select(first, middle, last)`. -/
def heapSelect (cmp : Int → Int → Bool) (h : List Int) (middle : Nat) : Option (List Int) :=
  (makeHeap cmp h middle).bind (fun h1 => heapSelectLoop cmp middle (h.length - middle) h1 middle)

/-- The routine `__sort_heap(first, last)`. -/
def sortHeap (cmp : Int → Int → Bool) : Nat → List Int → Option (List Int)
  | 0, h => some h
  | last + 1, h =>
    if last + 1 > 1 then (popHeap cmp h last last).bind (sortHeap cmp last) else some h

/-- The routine `__partial_sort(first, middle, last)`. -/
def partialSort (cmp : Int → Int → Bool) (h : List Int) (middle : Nat) : Option (List Int) :=
  (heapSelect cmp h middle).bind (sortHeap cmp middle)

/-- The routine `__move_median_to_first(result, a, b, c)`. -/
def moveMedianToFirst (cmp : Int → Int → Bool) (h : List Int) (result a b c : Nat) :
    Option (List Int) :=
  match h[a]?, h[b]?, h[c]? with
  | some va, some vb, some vc =>
    if cmp va vb then
      if cmp vb vc then iterSwap h result b
      else if cmp va vc then iterSwap h result c
      else iterSwap h result a
    else if cmp va vc then iterSwap h result a
    else if cmp vb vc then iterSwap h result c
    else iterSwap h result b
  | _, _, _ => none

/-- The loop `while (comp(first, pivot)) ++first` of `__unguarded_partition`; `none` when
it leaves the range.  The first argument bounds the rounds. -/
def scanUp (cmp : Int → Int → Bool) (h : List Int) (pivot : Nat) : Nat → Nat → Option Nat
  | 0, _ => none
  | fuel + 1, first =>
    match h[first]?, h[pivot]? with
    | some x, some p => if cmp x p then scanUp cmp h pivot fuel (first + 1) else some first
    | _, _ => none

/-- The loop `while (comp(pivot, last)) --last` of `__unguarded_partition`; `none` when it
steps before the first element of the range. -/
def scanDown (cmp : Int → Int → Bool) (h : List Int) (pivot : Nat) : Nat → Option Nat
  | 0 =>
    match h[0]?, h[pivot]? with
    | some x, some p => if cmp p x then none else some 0
    | _, _ => none
  | last + 1 =>
    match h[last + 1]?, h[pivot]? with
    | some x, some p => if cmp p x then scanDown cmp h pivot last else some (last + 1)
    | _, _ => none

/-- The routine `__unguarded_partition(first, last, pivot, comp)`, `first`, `last` and
`pivot` as offsets; it returns the cut and the range.  The first argument bounds the
rounds of the outer loop. -/
def unguardedPartition (cmp : Int → Int → Bool) (pivot : Nat) :
    Nat → List Int → Nat → Nat → Option (Nat × List Int)
  | 0, _, _, _ => none
  | fuel + 1, h, first, last =>
    (scanUp cmp h pivot (h.length + 1) first).bind (fun first1 =>
      match last with
      | 0 => none
      | last0 + 1 =>
        (scanDown cmp h pivot last0).bind (fun last1 =>
          if first1 < last1 then
            (iterSwap h first1 last1).bind (fun h1 =>
              unguardedPartition cmp pivot fuel h1 (first1 + 1) last1)
          else some (first1, h)))

/-- The routine `__unguarded_partition_pivot(first, last, comp)`: the median of the
second, the middle and the last element goes to the front, then the rest is partitioned
around it. -/
def unguardedPartitionPivot (cmp : Int → Int → Bool) (h : List Int) : Option (Nat × List Int) :=
  let mid := h.length / 2
  (moveMedianToFirst cmp h 0 1 mid (h.length - 1)).bind (fun h1 =>
    unguardedPartition cmp 0 (h1.length + 1) h1 1 h1.length)

/-- The routine `__introsort_loop(first, last, depth_limit, comp)`.  While the range has
more than `_S_threshold` elements: with the depth limit used up it is heap sorted and the
routine returns; otherwise the limit goes down by one, the range is cut, the routine
calls itself on the part from the cut on, and the loop goes on with the part before the
cut, which is the same routine on that part with the lowered limit. -/
def introsortLoop (cmp : Int → Int → Bool) : Nat → List Int → Option (List Int)
  | 0, h => if h.length > threshold then partialSort cmp h h.length else some h
  | depth + 1, h =>
    if h.length > threshold then
      (unguardedPartitionPivot cmp h).bind (fun (cut, h1) =>
        (introsortLoop cmp depth (h1.drop cut)).bind (fun right =>
          (introsortLoop cmp depth (h1.take cut)).bind (fun left =>
            some (left ++ right))))
    else some h

/-- Halving `n` until it is below 2, counting the rounds; the first argument bounds
them. -/
def lgAux : Nat → Nat → Nat
  | 0, _ => 0
  | fuel + 1, n => if n < 2 then 0 else lgAux fuel (n / 2) + 1

/-- The function `std::__lg(n)`: the position of the highest set bit of `n`. -/
def lg (n : Nat) : Nat := lgAux n n

/-- The call `std::sort(first, last, comp)` on the contents of the range, that is
`std::__sort`: nothing for an empty range, else the introsort loop with depth limit
`2 * __lg(last - first)` and the final insertion sort. -/
def sort (cmp : Int → Int → Bool) (xs : List Int) : Option (List Int) :=
  if xs.length ≠ 0 then
    (introsortLoop cmp (lg xs.length * 2) xs).bind (finalInsertionSort cmp)
  else some xs

/-! ## `std::cout` and `operator<<` -/

/-- The decimal digit character of `d`, that is `'0' + d`. -/
def digitChar (d : Nat) : Char := Char.ofNat ('0'.toNat + d)

/-- Digits of `n`, most significant first, put in front of `acc`; `fuel` bounds the
number of digits produced. -/
def natDigits : Nat → Nat → List Char → List Char
  | 0, _, acc => acc
  | fuel + 1, n, acc =>
    if n / 10 = 0 then digitChar (n % 10) :: acc
    else natDigits fuel (n / 10) (digitChar (n % 10) :: acc)

/-- Decimal digits of a natural number (`0` is `"0"`). -/
def formatNat (n : Nat) : List Char := natDigits (n + 1) n []

/-- The text `operator<<(int)` inserts: a minus sign for a negative value, then the
decimal digits of the magnitude. -/
def formatInt (v : Int) : String :=
  if v < 0 then String.mk ('-' :: formatNat v.natAbs) else String.mk (formatNat v.natAbs)

/-- The state of `std::cout`: the insertions made so far, oldest first. -/
abbrev OStream := List String

/-- The insertion `cout << num` for an `int`. -/
def insertInt (cout : OStream) (num : Int) : OStream := cout ++ [formatInt num]

/-- The insertion `cout << s` for a string literal. -/
def insertStr (cout : OStream) (s : String) : OStream := cout ++ [s]

/-- The printing lambda `[](int num) { std::cout << num << " "; }`. -/
def printLambda (cout : OStream) (num : Int) : OStream :=
  insertStr (insertInt cout num) " "

/-- The call `std::for_each(first, last, f)`: `f` is applied to each element in order. -/
def forEach (xs : List Int) (f : OStream → Int → OStream) (cout : OStream) : OStream :=
  xs.foldl f cout

/-- The bytes that reached standard output: the insertions, concatenated. -/
def written (cout : OStream) : String := String.join cout

/-- The print step on its own, started on an empty stream. -/
def print (xs : List Int) : OStream := forEach xs printLambda []

/-! ## `main` -/

/-- What a finished run leaves behind: the sequence after the sort, the state of
`std::cout`, and the exit status. -/
structure RunResult where
  sorted : List Int
  cout : OStream
  exitCode : Int
deriving DecidableEq

/-- The function `main`: sort `numbers`, print it, fall off the end (exit status `0`). -/
def main : Option RunResult :=
  (sort comp numbers).bind (fun sorted =>
    some { sorted := sorted, cout := forEach sorted printLambda [], exitCode := 0 })

/-- The text a run writes to standard output, when the run completes. -/
def output : Option String := main.map (fun r => written r.cout)

/-- The process entry point.  The operating system hands a run its command-line arguments
and its environment variables; `int main()` declares no parameter and reads neither, so
the run is `main` whatever they are. -/
structure Environment where
  args : List String
  vars : List (String × String)

/-- A run of the program in a given environment. -/
def run (_env : Environment) : Option RunResult := main

/-! ## The buffer of standard output -/

/-- The value of a decimal digit character. -/
def digitValue (c : Char) : Option Nat :=
  if '0'.toNat ≤ c.toNat ∧ c.toNat ≤ '9'.toNat then some (c.toNat - '0'.toNat) else none

/-- Read decimal digits after the value `a` read so far; `none` on a character that is
not a digit. -/
def parseNatAux (a : Nat) : List Char → Option Nat
  | [] => some a
  | c :: cs =>
    match digitValue c with
    | none => none
    | some d => parseNatAux (10 * a + d) cs

/-- Parse a non-empty run of decimal digits. -/
def parseNat : List Char → Option Nat
  | [] => none
  | cs => parseNatAux 0 cs

/-- Parse a decimal integer: an optional minus sign, then digits. -/
def parseInt : List Char → Option Int
  | '-' :: cs => Option.map (fun (n : Nat) => -(n : Int)) (parseNat cs)
  | cs => Option.map (fun (n : Nat) => (n : Int)) (parseNat cs)

/-- Split a text at every space; the pieces contain no space. -/
def splitOnSpace : List Char → List (List Char)
  | [] => [[]]
  | c :: cs =>
    if c = ' ' then [] :: splitOnSpace cs
    else
      match splitOnSpace cs with
      | [] => [[c]]
      | p :: ps => (c :: p) :: ps

/-- The non-empty pieces of a text split on spaces. -/
def tokens (s : String) : List (List Char) :=
  (splitOnSpace s.data).filter (fun p => p ≠ [])

/-- Parse every piece; `none` when some piece is not a decimal integer. -/
def parseAll : List (List Char) → Option (List Int)
  | [] => some []
  | p :: ps =>
    match parseInt p, parseAll ps with
    | some v, some vs => some (v :: vs)
    | _, _ => none

/-- The integers a text holds: its non-empty space-separated pieces, parsed. -/
def readInts (s : String) : Option (List Int) := parseAll (tokens s)

/-- The integers a completed run printed, read back from its output text. -/
def printed : Option (List Int) := output.bind readInts

/-- The sequence `1 1 2 3 3 4 5 5 5 6 9` that the specification names as the expected
output, as a list of integers. -/
def sortedNumbers : List Int := [1, 1, 2, 3, 3, 4, 5, 5, 5, 6, 9]

/-! ## Vocabulary of the proofs about the sort

These definitions are not part of the program: they name the facts the proofs keep track
of while the heap routines and the partition run. -/

/-- Read at an offset, `0` outside the list. -/
def rd (h : List Int) (i : Nat) : Int := h.getD i 0

/-- Offset `k` lies in the subtree of the binary heap rooted at offset `p`. -/
inductive Desc (p : Nat) : Nat → Prop
  | root : Desc p p
  | child (k : Nat) : 0 < k → Desc p ((k - 1) / 2) → Desc p k

/-- Heap order between every offset below `len` and its parent, for parents from `p` on. -/
def HeapAbove (p len : Nat) (h : List Int) : Prop :=
  ∀ i, 0 < i → i < len → p ≤ (i - 1) / 2 → rd h i ≤ rd h ((i - 1) / 2)

/-- Heap order around a hole at offset `k`: every pair not touching the hole is in order,
and the children of the hole are below the parent of the hole. -/
def HoleInv (p len k : Nat) (h : List Int) : Prop :=
  Desc p k ∧ k < len ∧
  (∀ i, 0 < i → i < len → p ≤ (i - 1) / 2 → i ≠ k → (i - 1) / 2 ≠ k →
    rd h i ≤ rd h ((i - 1) / 2)) ∧
  (p < k → ∀ c, 0 < c → c < len → (c - 1) / 2 = k → rd h c ≤ rd h ((k - 1) / 2))

/-- Every child of offset `k` holds at most `value`. -/
def ChildrenLE (len k : Nat) (h : List Int) (value : Int) : Prop :=
  ∀ c, 0 < c → c < len → (c - 1) / 2 = k → rd h c ≤ value

/-- The contents `h` with a hole at `k` became `h2` with a hole at `k2`. -/
def HoleMove (len : Nat) (h : List Int) (k : Nat) (h2 : List Int) (k2 : Nat) : Prop :=
  h2.length = h.length ∧
  (∀ i, len ≤ i → rd h2 i = rd h i) ∧
  (∀ i, i < len → ∃ j, j < len ∧ rd h2 i = rd h j) ∧
  (∀ x : Int, h2.count x + (if rd h k = x then 1 else 0) =
    h.count x + (if rd h2 k2 = x then 1 else 0))

/-- The contents `h` with a hole at `k` became `h2` once `value` was put into the hole. -/
def HoleFill (len : Nat) (h : List Int) (k : Nat) (value : Int) (h2 : List Int) : Prop :=
  h2.length = h.length ∧
  (∀ i, len ≤ i → rd h2 i = rd h i) ∧
  (∀ i, i < len → rd h2 i = value ∨ ∃ j, j < len ∧ rd h2 i = rd h j) ∧
  (∀ x : Int, h2.count x + (if rd h k = x then 1 else 0) =
    h.count x + (if value = x then 1 else 0))

/-- Every element from offset `threshold` on has an element before it that is not greater:
what the unguarded insertion needs in order to stop inside the range. -/
def Guarded (h : List Int) : Prop :=
  ∀ i, threshold ≤ i → i < h.length → ∃ j, j < i ∧ rd h j ≤ rd h i

/-! ## The sort: no failure, order, permutation -/

theorem comp_eq_true_iff (x y : Int) : comp x y = true ↔ x < y := by
  simp [comp]

theorem comp_eq_false_iff (x y : Int) : comp x y = false ↔ y ≤ x := by
  simp [comp]

/-- The unguarded insertion stops inside the range as soon as the range holds an element
that `val` is not less than; the result holds the same elements and keeps a descending
range descending. -/
theorem unguardedLinearInsert_spec (val : Int) :
    ∀ r : List Int, (∃ y ∈ r, y ≤ val) →
      ∃ r2, unguardedLinearInsert comp val r = some r2 ∧ r2.Perm (val :: r) ∧
        (r.Pairwise (fun a b => b ≤ a) → r2.Pairwise (fun a b => b ≤ a)) := by
  intro r
  induction r with
  | nil => rintro ⟨y, hy, _⟩; simp at hy
  | cons next before ih =>
    rintro ⟨y, hy, hle⟩
    by_cases hc : val < next
    · have hmem : y ∈ before := by
        rcases List.mem_cons.mp hy with h | h
        · subst h; omega
        · exact h
      obtain ⟨r2, hr2, hperm, hsorted⟩ := ih ⟨y, hmem, hle⟩
      refine ⟨next :: r2, ?_, ?_, ?_⟩
      · simp [unguardedLinearInsert, (comp_eq_true_iff val next).mpr hc, hr2]
      · exact (hperm.cons next).trans (List.Perm.swap val next before)
      · intro hp
        rw [List.pairwise_cons] at hp ⊢
        refine ⟨?_, hsorted hp.2⟩
        intro b hb
        rcases List.mem_cons.mp (hperm.subset hb) with h | h
        · subst h; omega
        · exact hp.1 b h
    · refine ⟨val :: next :: before, ?_, List.Perm.refl _, ?_⟩
      · have : comp val next = false := (comp_eq_false_iff val next).mpr (by omega)
        simp [unguardedLinearInsert, this]
      · intro hp
        rw [List.pairwise_cons]
        refine ⟨?_, hp⟩
        intro b hb
        rcases List.mem_cons.mp hb with h | h
        · subst h; omega
        · have := (List.pairwise_cons.mp hp).1 b h
          omega

/-- One insertion round succeeds, keeps the elements and keeps the range ordered. -/
theorem linearInsert_spec (pre : List Int) (val : Int) :
    ∃ p, linearInsert comp pre val = some p ∧ p.Perm (pre ++ [val]) ∧
      (pre.Pairwise (fun a b => a ≤ b) → p.Pairwise (fun a b => a ≤ b)) := by
  cases pre with
  | nil => exact ⟨[val], rfl, List.Perm.refl _, fun _ => List.pairwise_singleton _ _⟩
  | cons first tl =>
    by_cases hc : val < first
    · refine ⟨val :: first :: tl, ?_, ?_, ?_⟩
      · simp [linearInsert, (comp_eq_true_iff val first).mpr hc]
      · exact (List.perm_append_comm : ([val] ++ (first :: tl)).Perm ((first :: tl) ++ [val]))
      · intro hp
        rw [List.pairwise_cons]
        refine ⟨?_, hp⟩
        intro b hb
        rcases List.mem_cons.mp hb with h | h
        · subst h; omega
        · have := (List.pairwise_cons.mp hp).1 b h
          omega
    · obtain ⟨r2, hr2, hperm, hsorted⟩ :=
        unguardedLinearInsert_spec val (first :: tl).reverse
          ⟨first, by simp, by omega⟩
      refine ⟨r2.reverse, ?_, ?_, ?_⟩
      · have : comp val first = false := (comp_eq_false_iff val first).mpr (by omega)
        simp only [linearInsert, this, Bool.false_eq_true, if_false, hr2, Option.map_some']
      · refine (List.reverse_perm r2).trans (hperm.trans ?_)
        refine ((List.reverse_perm (first :: tl)).cons val).trans ?_
        exact (List.perm_append_comm : ([val] ++ (first :: tl)).Perm ((first :: tl) ++ [val]))
      · intro hp
        rw [List.pairwise_reverse]
        apply hsorted
        rw [List.pairwise_reverse]
        exact hp

/-- The insertion loop succeeds; its result is ordered when the starting range is, and
holds the elements of the starting range and of the rest. -/
theorem insertionSortLoop_spec (rest : List Int) :
    ∀ pre : List Int, pre.Pairwise (fun a b => a ≤ b) →
      ∃ ys, insertionSortLoop comp pre rest = some ys ∧ ys.Perm (pre ++ rest) ∧
        ys.Pairwise (fun a b => a ≤ b) := by
  induction rest with
  | nil => intro pre hp; exact ⟨pre, rfl, by simp, hp⟩
  | cons val rest ih =>
    intro pre hp
    obtain ⟨p, hp1, hperm, hsorted⟩ := linearInsert_spec pre val
    obtain ⟨ys, hys, hperm2, hs2⟩ := ih p (hsorted hp)
    refine ⟨ys, ?_, ?_, hs2⟩
    · simp [insertionSortLoop, hp1, hys]
    · refine hperm2.trans ?_
      have := hperm.append_right rest
      simpa using this

/-! ## The heap sort, the partition and the whole sort -/

theorem getElem?_eq_rd (h : List Int) (i : Nat) (hi : i < h.length) : h[i]? = some (rd h i) := by
  simp [rd, List.getD, List.getElem?_eq_getElem hi]

theorem store_eq (h : List Int) (i : Nat) (v : Int) (hi : i < h.length) :
    store h i v = some (h.set i v) := by
  simp [store, hi]

theorem rd_set (h : List Int) (k : Nat) (v : Int) (i : Nat) (hk : k < h.length) :
    rd (h.set k v) i = if i = k then v else rd h i := by
  unfold rd
  by_cases hik : i = k
  · subst hik
    simp [List.getD, List.getElem?_set, hk]
  · have : k ≠ i := fun e => hik e.symm
    simp [List.getD, List.getElem?_set, hik, this]

theorem count_set (h : List Int) (k : Nat) (v x : Int) (hk : k < h.length) :
    (h.set k v).count x + (if rd h k = x then 1 else 0) =
      h.count x + (if v = x then 1 else 0) := by
  induction h generalizing k with
  | nil => simp at hk
  | cons a t ih =>
    cases k with
    | zero =>
      simp only [List.set_cons_zero, List.count_cons, rd, List.getD_cons_zero]
      simp only [beq_iff_eq]
      omega
    | succ k =>
      have hk2 : k < t.length := by simpa using hk
      have := ih k hk2
      simp only [List.set_cons_succ, List.count_cons, rd, List.getD_cons_succ] at this ⊢
      omega

theorem Desc.le {p k : Nat} (h : Desc p k) : p ≤ k := by
  induction h with
  | root => exact Nat.le_refl _
  | child k hk _ ih => omega

theorem Desc.parent {p k : Nat} (h : Desc p k) (hpk : p < k) : Desc p ((k - 1) / 2) := by
  cases h with
  | root => omega
  | child _ _ h2 => exact h2

theorem HoleMove.refl (len : Nat) (h : List Int) (k : Nat) : HoleMove len h k h k :=
  ⟨rfl, fun _ _ => rfl, fun i hi => ⟨i, hi, rfl⟩, fun _ => rfl⟩

theorem HoleMove.trans {len : Nat} {h h1 h2 : List Int} {k k1 k2 : Nat}
    (a : HoleMove len h k h1 k1) (b : HoleMove len h1 k1 h2 k2) : HoleMove len h k h2 k2 := by
  obtain ⟨a1, a2, a3, a4⟩ := a
  obtain ⟨b1, b2, b3, b4⟩ := b
  refine ⟨b1.trans a1, fun i hi => (b2 i hi).trans (a2 i hi), ?_, ?_⟩
  · intro i hi
    obtain ⟨j, hj, e⟩ := b3 i hi
    obtain ⟨j2, hj2, e2⟩ := a3 j hj
    exact ⟨j2, hj2, e.trans e2⟩
  · intro x
    have := a4 x
    have := b4 x
    omega

theorem HoleMove.fill {len : Nat} {h h1 h2 : List Int} {k k1 : Nat} {value : Int}
    (a : HoleMove len h k h1 k1) (b : HoleFill len h1 k1 value h2) :
    HoleFill len h k value h2 := by
  obtain ⟨a1, a2, a3, a4⟩ := a
  obtain ⟨b1, b2, b3, b4⟩ := b
  refine ⟨b1.trans a1, fun i hi => (b2 i hi).trans (a2 i hi), ?_, ?_⟩
  · intro i hi
    rcases b3 i hi with e | ⟨j, hj, e⟩
    · exact Or.inl e
    · obtain ⟨j2, hj2, e2⟩ := a3 j hj
      exact Or.inr ⟨j2, hj2, e.trans e2⟩
  · intro x
    have := a4 x
    have := b4 x
    omega

/-- Moving the content of offset `c` into the hole at `k` moves the hole to `c`. -/
theorem HoleMove.step (len : Nat) (h : List Int) (k c : Nat) (hk : k < len) (hc : c < len)
    (hkc : c ≠ k) (hlen : len ≤ h.length) : HoleMove len h k (h.set k (rd h c)) c := by
  have hk2 : k < h.length := by omega
  refine ⟨by simp, ?_, ?_, ?_⟩
  · intro i hi
    rw [rd_set h k _ i hk2, if_neg (by omega)]
  · intro i hi
    rw [rd_set h k _ i hk2]
    by_cases e : i = k
    · rw [if_pos e]; exact ⟨c, hc, rfl⟩
    · rw [if_neg e]; exact ⟨i, hi, rfl⟩
  · intro x
    rw [rd_set h k _ c hk2, if_neg hkc]
    exact count_set h k (rd h c) x hk2

/-- Putting `value` into the hole. -/
theorem HoleFill.put (len : Nat) (h : List Int) (k : Nat) (value : Int) (hk : k < len)
    (hlen : len ≤ h.length) : HoleFill len h k value (h.set k value) := by
  have hk2 : k < h.length := by omega
  refine ⟨by simp, ?_, ?_, ?_⟩
  · intro i hi
    rw [rd_set h k _ i hk2, if_neg (by omega)]
  · intro i hi
    rw [rd_set h k _ i hk2]
    by_cases e : i = k
    · rw [if_pos e]; exact Or.inl rfl
    · rw [if_neg e]; exact Or.inr ⟨i, hi, rfl⟩
  · intro x
    exact count_set h k value x hk2

theorem holeInv_of_heapAbove (p len : Nat) (h : List Int) (hp : p < len)
    (hh : HeapAbove (p + 1) len h) : HoleInv p len p h := by
  refine ⟨Desc.root, hp, ?_, fun hlt => absurd hlt (Nat.lt_irrefl p)⟩
  intro i hi0 hil hpi _ hne
  exact hh i hi0 hil (by omega)

/-- The hole moves down to its child `c`, which holds the larger content. -/
theorem holeInv_down (p len k c : Nat) (h : List Int) (hlen : len ≤ h.length)
    (hinv : HoleInv p len k h) (hc0 : 0 < c) (hck : (c - 1) / 2 = k) (hcl : c < len)
    (hbig : ∀ d, 0 < d → d < len → (d - 1) / 2 = k → rd h d ≤ rd h c) :
    HoleInv p len c (h.set k (rd h c)) := by
  obtain ⟨hd, hkl, hb, hcc⟩ := hinv
  have hk2 : k < h.length := by omega
  have hpk : p ≤ k := hd.le
  refine ⟨Desc.child c hc0 (hck ▸ hd), hcl, ?_, ?_⟩
  · intro i hi0 hil hpi hic hpc
    rw [rd_set h k _ i hk2, rd_set h k _ ((i - 1) / 2) hk2]
    by_cases e1 : i = k
    · have e2 : (i - 1) / 2 ≠ k := by omega
      rw [if_pos e1, if_neg e2]
      subst e1
      exact hcc (by omega) c hc0 hcl hck
    · rw [if_neg e1]
      by_cases e2 : (i - 1) / 2 = k
      · rw [if_pos e2]
        exact hbig i hi0 hil e2
      · rw [if_neg e2]
        exact hb i hi0 hil hpi e1 e2
  · intro hpc d hd0 hdl hdc
    rw [rd_set h k _ d hk2, rd_set h k _ ((c - 1) / 2) hk2]
    have e1 : d ≠ k := by omega
    rw [if_neg e1, if_pos hck]
    have := hb d hd0 hdl (by omega) e1 (by omega)
    rw [hdc] at this
    exact this

/-- The hole moves up to its parent, whose content is less than `value`. -/
theorem holeInv_up (p len k : Nat) (h : List Int) (value : Int) (hlen : len ≤ h.length)
    (hinv : HoleInv p len k h) (hch : ChildrenLE len k h value) (hpk : p < k)
    (hlt : rd h ((k - 1) / 2) < value) :
    HoleInv p len ((k - 1) / 2) (h.set k (rd h ((k - 1) / 2))) ∧
      ChildrenLE len ((k - 1) / 2) (h.set k (rd h ((k - 1) / 2))) value := by
  obtain ⟨hd, hkl, hb, hcc⟩ := hinv
  have hk2 : k < h.length := by omega
  have hdq : Desc p ((k - 1) / 2) := hd.parent hpk
  have hpq : p ≤ (k - 1) / 2 := hdq.le
  have hqk : (k - 1) / 2 < k := by omega
  -- heap order between the parent and the grandparent, when the parent is below `p`
  have hq : p < (k - 1) / 2 → rd h ((k - 1) / 2) ≤ rd h (((k - 1) / 2 - 1) / 2) := by
    intro hpq2
    have := (hdq.parent hpq2).le
    exact hb ((k - 1) / 2) (by omega) (by omega) this (by omega) (by omega)
  refine ⟨⟨hdq, by omega, ?_, ?_⟩, ?_⟩
  · intro i hi0 hil hpi hiq hpq3
    rw [rd_set h k _ i hk2, rd_set h k _ ((i - 1) / 2) hk2]
    have e1 : i ≠ k := by
      intro e; subst e; exact hpq3 rfl
    rw [if_neg e1]
    by_cases e2 : (i - 1) / 2 = k
    · rw [if_pos e2]
      exact hcc hpk i hi0 hil e2
    · rw [if_neg e2]
      exact hb i hi0 hil hpi e1 e2
  · intro hpq2 d hd0 hdl hdq2
    rw [rd_set h k _ d hk2, rd_set h k _ (((k - 1) / 2 - 1) / 2) hk2]
    have e0 : ((k - 1) / 2 - 1) / 2 ≠ k := by omega
    rw [if_neg e0]
    by_cases e1 : d = k
    · rw [if_pos e1]; exact hq hpq2
    · rw [if_neg e1]
      have h1 := hb d hd0 hdl (by omega) e1 (by omega)
      rw [hdq2] at h1
      exact le_trans h1 (hq hpq2)
  · intro d hd0 hdl hdq2
    rw [rd_set h k _ d hk2]
    by_cases e1 : d = k
    · rw [if_pos e1]; omega
    · rw [if_neg e1]
      have h1 := hb d hd0 hdl (by omega) e1 (by omega)
      rw [hdq2] at h1
      omega

/-- Putting `value` into the hole gives a heap when the parent of the hole is not less. -/
theorem heapAbove_fill (p len k : Nat) (h : List Int) (value : Int) (hlen : len ≤ h.length)
    (hinv : HoleInv p len k h) (hch : ChildrenLE len k h value)
    (hstop : ¬ (p < k) ∨ value ≤ rd h ((k - 1) / 2)) :
    HeapAbove p len (h.set k value) := by
  obtain ⟨hd, hkl, hb, hcc⟩ := hinv
  have hk2 : k < h.length := by omega
  have hpk : p ≤ k := hd.le
  intro i hi0 hil hpi
  rw [rd_set h k _ i hk2, rd_set h k _ ((i - 1) / 2) hk2]
  by_cases e1 : i = k
  · have e2 : (i - 1) / 2 ≠ k := by omega
    rw [if_pos e1, if_neg e2]
    subst e1
    rcases hstop with hs | hs
    · omega
    · exact hs
  · rw [if_neg e1]
    by_cases e2 : (i - 1) / 2 = k
    · rw [if_pos e2]; exact hch i hi0 hil e2
    · rw [if_neg e2]; exact hb i hi0 hil hpi e1 e2

/-- The first loop of `__adjust_heap` runs to its end and leaves a hole with no two
children. -/
theorem adjustHeapDown_spec (p len : Nat) :
    ∀ (fuel : Nat) (h : List Int) (k : Nat), len - k < fuel → len ≤ h.length →
      HoleInv p len k h →
      ∃ h2 k2, adjustHeapDown comp len fuel h k = some (h2, k2) ∧ HoleInv p len k2 h2 ∧
        HoleMove len h k h2 k2 ∧ ¬ (k2 < (len - 1) / 2) := by
  intro fuel
  induction fuel with
  | zero => intro h k hf; omega
  | succ fuel ih =>
    intro h k hf hlen hinv
    have hkl : k < len := hinv.2.1
    unfold adjustHeapDown
    by_cases hlt : k < (len - 1) / 2
    · rw [if_pos hlt]
      have hs : 2 * (k + 1) < len := by omega
      have c1 : 2 * (k + 1) < h.length := by omega
      have c2 : 2 * (k + 1) - 1 < h.length := by omega
      simp only [getElem?_eq_rd h _ c1, getElem?_eq_rd h _ c2]
      -- the child with the larger content
      generalize hcd : (if comp (rd h (2 * (k + 1))) (rd h (2 * (k + 1) - 1)) = true
        then 2 * (k + 1) - 1 else 2 * (k + 1)) = c
      have hc : (c = 2 * (k + 1) - 1 ∧ rd h (2 * (k + 1)) < rd h (2 * (k + 1) - 1)) ∨
          (c = 2 * (k + 1) ∧ rd h (2 * (k + 1) - 1) ≤ rd h (2 * (k + 1))) := by
        by_cases hcmp : comp (rd h (2 * (k + 1))) (rd h (2 * (k + 1) - 1)) = true
        · rw [if_pos hcmp] at hcd
          exact Or.inl ⟨hcd.symm, (comp_eq_true_iff _ _).mp hcmp⟩
        · rw [if_neg hcmp] at hcd
          have : ¬ (rd h (2 * (k + 1)) < rd h (2 * (k + 1) - 1)) :=
            fun e => hcmp ((comp_eq_true_iff _ _).mpr e)
          exact Or.inr ⟨hcd.symm, by omega⟩
      have hcl : c < len := by rcases hc with ⟨e, _⟩ | ⟨e, _⟩ <;> omega
      have hck : (c - 1) / 2 = k := by rcases hc with ⟨e, _⟩ | ⟨e, _⟩ <;> omega
      have hc0 : 0 < c := by rcases hc with ⟨e, _⟩ | ⟨e, _⟩ <;> omega
      have hbig : ∀ d, 0 < d → d < len → (d - 1) / 2 = k → rd h d ≤ rd h c := by
        intro d hd0 hdl hdk
        have hd : d = 2 * (k + 1) - 1 ∨ d = 2 * (k + 1) := by omega
        rcases hc with ⟨e, hv⟩ | ⟨e, hv⟩ <;> rcases hd with e2 | e2 <;> subst e <;> subst e2 <;>
          omega
      simp only [getElem?_eq_rd h c (by omega), store_eq h k _ (by omega : k < h.length),
        Option.some_bind]
      have hinv2 := holeInv_down p len k c h hlen hinv hc0 hck hcl hbig
      obtain ⟨h2, k2, e, i2, m2, n2⟩ :=
        ih (h.set k (rd h c)) c (by omega) (by simpa using hlen) hinv2
      exact ⟨h2, k2, e, i2, (HoleMove.step len h k c hkl hcl (by omega) hlen).trans m2, n2⟩
    · rw [if_neg hlt]
      exact ⟨h, k, rfl, hinv, HoleMove.refl len h k, hlt⟩

/-- The loop of `__push_heap` runs to its end, and putting `value` into the hole it stops
at gives a heap. -/
theorem pushHeap_spec (p len : Nat) (value : Int) :
    ∀ (fuel : Nat) (h : List Int) (k : Nat), k < fuel → len ≤ h.length →
      HoleInv p len k h → ChildrenLE len k h value →
      ∃ h2, pushHeap comp p value fuel h k = some h2 ∧ HeapAbove p len h2 ∧
        HoleFill len h k value h2 := by
  intro fuel
  induction fuel with
  | zero => intro h k hf; omega
  | succ fuel ih =>
    intro h k hf hlen hinv hch
    have hkl : k < len := hinv.2.1
    have hk2 : k < h.length := by omega
    unfold pushHeap
    by_cases hpk : k > p
    · simp only [hpk, if_true]
      have hq : (k - 1) / 2 < h.length := by omega
      simp only [getElem?_eq_rd h _ hq]
      by_cases hcmp : comp (rd h ((k - 1) / 2)) value = true
      · rw [if_pos hcmp]
        have hlt := (comp_eq_true_iff _ _).mp hcmp
        simp only [store_eq h k _ hk2, Option.some_bind]
        obtain ⟨i2, c2⟩ := holeInv_up p len k h value hlen hinv hch hpk hlt
        obtain ⟨h2, e, hp2, f2⟩ :=
          ih (h.set k (rd h ((k - 1) / 2))) ((k - 1) / 2) (by omega) (by simpa using hlen) i2 c2
        have hqk : (k - 1) / 2 ≠ k := by omega
        exact ⟨h2, e, hp2,
          (HoleMove.step len h k ((k - 1) / 2) hkl (by omega) hqk hlen).fill f2⟩
      · rw [if_neg hcmp]
        have hge : value ≤ rd h ((k - 1) / 2) := by
          have : ¬ (rd h ((k - 1) / 2) < value) := fun e => hcmp ((comp_eq_true_iff _ _).mpr e)
          omega
        exact ⟨h.set k value, store_eq h k value hk2,
          heapAbove_fill p len k h value hlen hinv hch (Or.inr hge),
          HoleFill.put len h k value hkl hlen⟩
    · simp only [hpk, if_false]
      exact ⟨h.set k value, store_eq h k value hk2,
        heapAbove_fill p len k h value hlen hinv hch (Or.inl hpk),
        HoleFill.put len h k value hkl hlen⟩

/-- The routine `__adjust_heap` on a range that is a heap below offset `p`: it returns,
the range is a heap from `p` on, and its contents are the old ones with `value` in place
of the content of `p`. -/
theorem adjustHeap_spec (p len : Nat) (h : List Int) (value : Int) (hp : p < len)
    (hlen : len ≤ h.length) (hh : HeapAbove (p + 1) len h) :
    ∃ h2, adjustHeap comp h p len value = some h2 ∧ HeapAbove p len h2 ∧
      HoleFill len h p value h2 := by
  obtain ⟨h1, k1, e1, i1, m1, n1⟩ :=
    adjustHeapDown_spec p len (len + 1) h p (by omega) hlen (holeInv_of_heapAbove p len h hp hh)
  have hlen1 : len ≤ h1.length := by rw [m1.1]; exact hlen
  have hk1 : k1 < len := i1.2.1
  unfold adjustHeap
  simp only [e1, Option.some_bind]
  by_cases hsp : len % 2 = 0 ∧ k1 = (len - 2) / 2
  · rw [if_pos hsp]
    have hc : 2 * (k1 + 1) - 1 < len := by omega
    simp only [getElem?_eq_rd h1 _ (by omega : 2 * (k1 + 1) - 1 < h1.length),
      store_eq h1 k1 _ (by omega : k1 < h1.length), Option.some_bind]
    have hbig : ∀ d, 0 < d → d < len → (d - 1) / 2 = k1 →
        rd h1 d ≤ rd h1 (2 * (k1 + 1) - 1) := by
      intro d hd0 hdl hdk
      have : d = 2 * (k1 + 1) - 1 := by omega
      rw [this]
    have i2 := holeInv_down p len k1 (2 * (k1 + 1) - 1) h1 hlen1 i1 (by omega) (by omega) hc hbig
    have c2 : ChildrenLE len (2 * (k1 + 1) - 1) (h1.set k1 (rd h1 (2 * (k1 + 1) - 1))) value := by
      intro d hd0 hdl hdk
      omega
    obtain ⟨h2, e2, hp2, f2⟩ :=
      pushHeap_spec p len value (len + 1) (h1.set k1 (rd h1 (2 * (k1 + 1) - 1)))
        (2 * (k1 + 1) - 1) (by omega) (by simpa using hlen1) i2 c2
    exact ⟨h2, e2, hp2,
      (m1.trans (HoleMove.step len h1 k1 (2 * (k1 + 1) - 1) hk1 hc (by omega) hlen1)).fill f2⟩
  · rw [if_neg hsp]
    have c1 : ChildrenLE len k1 h1 value := by
      intro d hd0 hdl hdk
      omega
    obtain ⟨h2, e2, hp2, f2⟩ := pushHeap_spec p len value (len + 1) h1 k1 (by omega) hlen1 i1 c1
    exact ⟨h2, e2, hp2, m1.fill f2⟩

theorem rd_eq_getElem (h : List Int) (i : Nat) (hi : i < h.length) : rd h i = h[i] := by
  simp [rd, List.getD, List.getElem?_eq_getElem hi]

theorem pairwise_of_rd_le (l : List Int)
    (hs : ∀ i j, i ≤ j → j < l.length → rd l i ≤ rd l j) : l.Pairwise (fun a b => a ≤ b) := by
  rw [List.pairwise_iff_get]
  intro i j hij
  have := hs i.1 j.1 (Nat.le_of_lt hij) j.2
  rw [rd_eq_getElem l i.1 i.2, rd_eq_getElem l j.1 j.2] at this
  simpa using this

theorem heapAbove_root_max (len : Nat) (h : List Int) (hh : HeapAbove 0 len h) :
    ∀ i, i < len → rd h i ≤ rd h 0 := by
  intro i
  induction i using Nat.strong_induction_on with
  | _ i ih =>
    intro hi
    by_cases h0 : i = 0
    · subst h0; exact le_refl _
    · have h1 := hh i (by omega) hi (Nat.zero_le _)
      have h2 := ih ((i - 1) / 2) (by omega) (by omega)
      exact le_trans h1 h2

/-- The loop of `__make_heap` from `parent = p` down to `0`. -/
theorem makeHeapLoop_spec (len : Nat) :
    ∀ (p : Nat) (h : List Int), p < len → len ≤ h.length → HeapAbove (p + 1) len h →
      ∃ h2, makeHeapLoop comp len p h = some h2 ∧ HeapAbove 0 len h2 ∧
        h2.length = h.length ∧ (∀ x : Int, h2.count x = h.count x) := by
  intro p
  induction p with
  | zero =>
    intro h hp hlen hh
    obtain ⟨h2, e, hp2, f⟩ := adjustHeap_spec 0 len h (rd h 0) hp hlen hh
    refine ⟨h2, ?_, hp2, f.1, ?_⟩
    · simp only [makeHeapLoop, getElem?_eq_rd h 0 (by omega), e]
    · intro x
      have := f.2.2.2 x
      omega
  | succ p ih =>
    intro h hp hlen hh
    obtain ⟨h1, e, hp1, f⟩ := adjustHeap_spec (p + 1) len h (rd h (p + 1)) hp hlen hh
    obtain ⟨h2, e2, hp2, l2, c2⟩ := ih h1 (by omega) (by rw [f.1]; exact hlen) hp1
    refine ⟨h2, ?_, hp2, l2.trans f.1, ?_⟩
    · simp only [makeHeapLoop, getElem?_eq_rd h (p + 1) (by omega), e, Option.some_bind, e2]
    · intro x
      have := f.2.2.2 x
      have := c2 x
      omega

theorem makeHeap_spec (h : List Int) (len : Nat) (hlen : len ≤ h.length) :
    ∃ h2, makeHeap comp h len = some h2 ∧ HeapAbove 0 len h2 ∧
      h2.length = h.length ∧ (∀ x : Int, h2.count x = h.count x) := by
  unfold makeHeap
  by_cases hl : len < 2
  · rw [if_pos hl]
    refine ⟨h, rfl, ?_, rfl, fun _ => rfl⟩
    intro i hi0 hil _
    omega
  · rw [if_neg hl]
    apply makeHeapLoop_spec len ((len - 2) / 2) h (by omega) hlen
    intro i hi0 hil hpi
    omega

/-- The call `__pop_heap(first, last, last)` on a heap of `last + 1` elements: the largest
goes to offset `last`, the rest is a heap again. -/
theorem popHeap_spec (h : List Int) (last : Nat) (h0 : 0 < last) (hlen : last < h.length)
    (hh : HeapAbove 0 (last + 1) h) :
    ∃ h2, popHeap comp h last last = some h2 ∧ HeapAbove 0 last h2 ∧
      h2.length = h.length ∧ (∀ x : Int, h2.count x = h.count x) ∧
      rd h2 last = rd h 0 ∧ (∀ i, last < i → rd h2 i = rd h i) ∧
      (∀ i, i < last → ∃ j, j < last + 1 ∧ rd h2 i = rd h j) := by
  have hh1 : HeapAbove 1 last (h.set last (rd h 0)) := by
    intro i hi0 hil hpi
    rw [rd_set h last _ i hlen, rd_set h last _ ((i - 1) / 2) hlen, if_neg (by omega),
      if_neg (by omega)]
    exact hh i hi0 (by omega) (Nat.zero_le _)
  obtain ⟨h2, e, hp2, f1, f2, f3, f4⟩ :=
    adjustHeap_spec 0 last (h.set last (rd h 0)) (rd h last) h0 (by simp; omega) hh1
  refine ⟨h2, ?_, hp2, by simpa using f1, ?_, ?_, ?_, ?_⟩
  · simp only [popHeap, getElem?_eq_rd h last hlen, getElem?_eq_rd h 0 (by omega),
      store_eq h last _ hlen, Option.some_bind, e]
  · intro x
    have a := f4 x
    have b := count_set h last (rd h 0) x hlen
    have e0 : rd (h.set last (rd h 0)) 0 = rd h 0 := by
      rw [rd_set h last _ 0 hlen]
      exact if_neg (by omega)
    rw [e0] at a
    omega
  · rw [f2 last (Nat.le_refl _), rd_set h last _ last hlen, if_pos rfl]
  · intro i hi
    rw [f2 i (by omega), rd_set h last _ i hlen, if_neg (by omega)]
  · intro i hi
    rcases f3 i hi with e1 | ⟨j, hj, e1⟩
    · exact ⟨last, by omega, e1⟩
    · refine ⟨j, by omega, ?_⟩
      rw [e1, rd_set h last _ j hlen, if_neg (by omega)]

/-- The routine `__sort_heap` on a heap of `last` elements below an ordered tail that
holds no smaller element: it returns, and the whole range is in order. -/
theorem sortHeap_spec :
    ∀ (last : Nat) (h : List Int), last ≤ h.length → HeapAbove 0 last h →
      (∀ i j, last ≤ i → i ≤ j → j < h.length → rd h i ≤ rd h j) →
      (∀ i j, i < last → last ≤ j → j < h.length → rd h i ≤ rd h j) →
      ∃ h2, sortHeap comp last h = some h2 ∧ h2.length = h.length ∧
        (∀ x : Int, h2.count x = h.count x) ∧
        (∀ i j, i ≤ j → j < h2.length → rd h2 i ≤ rd h2 j) := by
  intro last
  induction last with
  | zero =>
    intro h _ _ hs _
    exact ⟨h, rfl, rfl, fun _ => rfl, fun i j hij hj => hs i j (Nat.zero_le _) hij hj⟩
  | succ last ih =>
    intro h hlen hh hs hx
    unfold sortHeap
    by_cases h1 : last + 1 > 1
    · rw [if_pos h1]
      obtain ⟨h2, e, hp2, l2, c2, top2, fr2, mem2⟩ := popHeap_spec h last (by omega) (by omega) hh
      have hroot := heapAbove_root_max (last + 1) h hh
      have hs2 : ∀ i j, last ≤ i → i ≤ j → j < h2.length → rd h2 i ≤ rd h2 j := by
        intro i j hi hij hj
        rw [l2] at hj
        by_cases ei : i = last
        · subst ei
          by_cases ej : j = i
          · subst ej; exact le_refl _
          · rw [top2, fr2 j (by omega)]
            exact hx 0 j (by omega) (by omega) hj
        · rw [fr2 i (by omega), fr2 j (by omega)]
          exact hs i j (by omega) hij hj
      have hx2 : ∀ i j, i < last → last ≤ j → j < h2.length → rd h2 i ≤ rd h2 j := by
        intro i j hi hj hjl
        rw [l2] at hjl
        obtain ⟨k, hk, ek⟩ := mem2 i hi
        rw [ek]
        by_cases ej : j = last
        · subst ej
          rw [top2]
          exact hroot k hk
        · rw [fr2 j (by omega)]
          exact hx k j hk (by omega) hjl
      obtain ⟨h3, e3, l3, c3, s3⟩ := ih h2 (by omega) hp2 hs2 hx2
      refine ⟨h3, ?_, l3.trans l2, fun x => (c3 x).trans (c2 x), s3⟩
      simp only [e, Option.some_bind, e3]
    · rw [if_neg h1]
      refine ⟨h, rfl, rfl, fun _ => rfl, ?_⟩
      intro i j hij hj
      by_cases ei : i = 0
      · by_cases ej : j = 0
        · subst ei; subst ej; exact le_refl _
        · exact hx i j (by omega) (by omega) hj
      · exact hs i j (by omega) hij hj

/-- The call `__partial_sort(first, last, last)`, a heap sort of the whole range:
it returns an ordered permutation. -/
theorem partialSort_spec (h : List Int) :
    ∃ zs, partialSort comp h h.length = some zs ∧ zs.Perm h ∧
      zs.Pairwise (fun a b => a ≤ b) := by
  obtain ⟨h1, e1, hp1, l1, c1⟩ := makeHeap_spec h h.length (Nat.le_refl _)
  obtain ⟨h2, e2, l2, c2, s2⟩ := sortHeap_spec h.length h1 (by omega) hp1
    (fun i j hi _ hj => by omega) (fun i j _ hj hjl => by omega)
  refine ⟨h2, ?_, ?_, pairwise_of_rd_le h2 s2⟩
  · simp only [partialSort, heapSelect, e1, Option.some_bind, Nat.sub_self, heapSelectLoop, e2]
  · rw [List.perm_iff_count]
    intro x
    exact (c2 x).trans (c1 x)

theorem mem_take_rd (l : List Int) (c : Nat) (x : Int) (hx : x ∈ l.take c) :
    ∃ i, i < c ∧ i < l.length ∧ rd l i = x := by
  obtain ⟨i, hi, e⟩ := List.mem_iff_getElem.mp hx
  have hi2 : i < c ∧ i < l.length := by
    rw [List.length_take] at hi
    omega
  refine ⟨i, hi2.1, hi2.2, ?_⟩
  rw [rd_eq_getElem l i hi2.2, ← e, List.getElem_take]

theorem mem_drop_rd (l : List Int) (c : Nat) (y : Int) (hy : y ∈ l.drop c) :
    ∃ i, c ≤ i ∧ i < l.length ∧ rd l i = y := by
  obtain ⟨i, hi, e⟩ := List.mem_iff_getElem.mp hy
  have hi2 : c + i < l.length := by
    rw [List.length_drop] at hi
    omega
  refine ⟨c + i, by omega, hi2, ?_⟩
  rw [rd_eq_getElem l (c + i) hi2, ← e, List.getElem_drop]

/-- The call `std::iter_swap` inside the range: the two contents change places. -/
theorem iterSwap_spec (h : List Int) (i j : Nat) (hi : i < h.length) (hj : j < h.length) :
    ∃ h2, iterSwap h i j = some h2 ∧ h2.length = h.length ∧
      (∀ x : Int, h2.count x = h.count x) ∧
      (∀ k, rd h2 k = if k = j then rd h i else if k = i then rd h j else rd h k) := by
  refine ⟨(h.set i (rd h j)).set j (rd h i), ?_, by simp, ?_, ?_⟩
  · simp only [iterSwap, getElem?_eq_rd h i hi, getElem?_eq_rd h j hj]
  · intro x
    have a := count_set h i (rd h j) x hi
    have b := count_set (h.set i (rd h j)) j (rd h i) x (by simpa using hj)
    have e : rd (h.set i (rd h j)) j = rd h j := by
      rw [rd_set h i _ j hi]
      by_cases e : j = i
      · rw [if_pos e]
      · rw [if_neg e]
    rw [e] at b
    omega
  · intro k
    rw [rd_set (h.set i (rd h j)) j _ k (by simpa using hj), rd_set h i _ k hi]

/-- The routine `__move_median_to_first` as `__unguarded_partition_pivot` calls it, on a
range of at least four elements: afterwards the range holds, behind its first element,
one element that is not greater and one that is not less than the first. -/
theorem moveMedianToFirst_spec (h : List Int) (hn : 4 ≤ h.length) :
    ∃ h2, moveMedianToFirst comp h 0 1 (h.length / 2) (h.length - 1) = some h2 ∧
      h2.length = h.length ∧ (∀ x : Int, h2.count x = h.count x) ∧
      (∃ s, 1 ≤ s ∧ s < h.length ∧ rd h2 s ≤ rd h2 0) ∧
      (∃ t, 1 ≤ t ∧ t < h.length ∧ rd h2 0 ≤ rd h2 t) := by
  have h1 : 1 < h.length := by omega
  have hm : h.length / 2 < h.length := by omega
  have hl : h.length - 1 < h.length := by omega
  obtain ⟨ha, ea, la, ca, ra⟩ := iterSwap_spec h 0 1 (by omega) h1
  obtain ⟨hb, eb, lb, cb, rb⟩ := iterSwap_spec h 0 (h.length / 2) (by omega) hm
  obtain ⟨hc, ec, lc, cc, rc⟩ := iterSwap_spec h 0 (h.length - 1) (by omega) hl
  have d1 : (1 : Nat) ≠ h.length / 2 := by omega
  have d2 : (1 : Nat) ≠ h.length - 1 := by omega
  have d3 : h.length / 2 ≠ h.length - 1 := by omega
  have d4 : h.length / 2 ≠ 0 := by omega
  have d5 : h.length - 1 ≠ 0 := by omega
  simp only [moveMedianToFirst, getElem?_eq_rd h 1 h1, getElem?_eq_rd h _ hm,
    getElem?_eq_rd h _ hl]
  by_cases c1 : comp (rd h 1) (rd h (h.length / 2)) = true
  · have v1 := (comp_eq_true_iff _ _).mp c1
    rw [if_pos c1]
    by_cases c2 : comp (rd h (h.length / 2)) (rd h (h.length - 1)) = true
    · have v2 := (comp_eq_true_iff _ _).mp c2
      rw [if_pos c2]
      refine ⟨hb, eb, lb, cb, ⟨1, by omega, h1, ?_⟩, ⟨h.length - 1, by omega, hl, ?_⟩⟩
      · rw [rb 1, rb 0]; simp only [d1, if_false, Ne.symm d4, if_true]; omega
      · rw [rb (h.length - 1), rb 0]
        simp only [Ne.symm d3, if_false, d5, Ne.symm d4, if_true]; omega
    · have v2 := (comp_eq_false_iff _ _).mp (by simpa using c2)
      rw [if_neg c2]
      by_cases c3 : comp (rd h 1) (rd h (h.length - 1)) = true
      · have v3 := (comp_eq_true_iff _ _).mp c3
        rw [if_pos c3]
        refine ⟨hc, ec, lc, cc, ⟨1, by omega, h1, ?_⟩, ⟨h.length / 2, by omega, hm, ?_⟩⟩
        · rw [rc 1, rc 0]; simp only [d2, if_false, Ne.symm d5, if_true]; omega
        · rw [rc (h.length / 2), rc 0]
          simp only [d3, if_false, d4, Ne.symm d5, if_true]; omega
      · have v3 := (comp_eq_false_iff _ _).mp (by simpa using c3)
        rw [if_neg c3]
        refine ⟨ha, ea, la, ca, ⟨h.length - 1, by omega, hl, ?_⟩, ⟨h.length / 2, by omega, hm, ?_⟩⟩
        · rw [ra (h.length - 1), ra 0]
          simp only [Ne.symm d2, if_false, d5, if_true]; simp; omega
        · rw [ra (h.length / 2), ra 0]
          simp only [Ne.symm d1, if_false, d4, if_true]; simp; omega
  · have v1 := (comp_eq_false_iff _ _).mp (by simpa using c1)
    rw [if_neg c1]
    by_cases c3 : comp (rd h 1) (rd h (h.length - 1)) = true
    · have v3 := (comp_eq_true_iff _ _).mp c3
      rw [if_pos c3]
      refine ⟨ha, ea, la, ca, ⟨h.length / 2, by omega, hm, ?_⟩, ⟨h.length - 1, by omega, hl, ?_⟩⟩
      · rw [ra (h.length / 2), ra 0]
        simp only [Ne.symm d1, if_false, d4, if_true]; simp; omega
      · rw [ra (h.length - 1), ra 0]
        simp only [Ne.symm d2, if_false, d5, if_true]; simp; omega
    · have v3 := (comp_eq_false_iff _ _).mp (by simpa using c3)
      rw [if_neg c3]
      by_cases c2 : comp (rd h (h.length / 2)) (rd h (h.length - 1)) = true
      · have v2 := (comp_eq_true_iff _ _).mp c2
        rw [if_pos c2]
        refine ⟨hc, ec, lc, cc, ⟨h.length / 2, by omega, hm, ?_⟩, ⟨1, by omega, h1, ?_⟩⟩
        · rw [rc (h.length / 2), rc 0]
          simp only [d3, if_false, d4, Ne.symm d5, if_true]; omega
        · rw [rc 1, rc 0]; simp only [d2, if_false, Ne.symm d5, if_true]; simp; omega
      · have v2 := (comp_eq_false_iff _ _).mp (by simpa using c2)
        rw [if_neg c2]
        refine ⟨hb, eb, lb, cb, ⟨h.length - 1, by omega, hl, ?_⟩, ⟨1, by omega, h1, ?_⟩⟩
        · rw [rb (h.length - 1), rb 0]
          simp only [Ne.symm d3, if_false, d5, Ne.symm d4, if_true]; omega
        · rw [rb 1, rb 0]; simp only [d1, if_false, Ne.symm d4, if_true]; simp; omega

/-- The loop `while (comp(first, pivot)) ++first` stops inside the range when an element
that is not less than the pivot lies ahead. -/
theorem scanUp_spec (h : List Int) (t : Nat) (ht : t < h.length) (hpt : rd h 0 ≤ rd h t) :
    ∀ (fuel f : Nat), f ≤ t → t - f < fuel →
      ∃ f1, scanUp comp h 0 fuel f = some f1 ∧ f ≤ f1 ∧ f1 ≤ t ∧ rd h 0 ≤ rd h f1 ∧
        ∀ i, f ≤ i → i < f1 → rd h i < rd h 0 := by
  intro fuel
  induction fuel with
  | zero => intro f _ hf; omega
  | succ fuel ih =>
    intro f hft hf
    simp only [scanUp, getElem?_eq_rd h f (by omega), getElem?_eq_rd h 0 (by omega)]
    by_cases c : comp (rd h f) (rd h 0) = true
    · have v := (comp_eq_true_iff _ _).mp c
      rw [if_pos c]
      have hne : f ≠ t := by
        intro e; subst e; omega
      obtain ⟨f1, e, a1, a2, a3, a4⟩ := ih (f + 1) (by omega) (by omega)
      refine ⟨f1, e, by omega, a2, a3, ?_⟩
      intro i hi1 hi2
      by_cases ei : i = f
      · subst ei; exact v
      · exact a4 i (by omega) hi2
    · have v := (comp_eq_false_iff _ _).mp (by simpa using c)
      rw [if_neg c]
      exact ⟨f, rfl, Nat.le_refl _, hft, v, fun i hi1 hi2 => by omega⟩

/-- The loop `while (comp(pivot, last)) --last` stops at the pivot at the latest. -/
theorem scanDown_spec (h : List Int) :
    ∀ (l : Nat), l < h.length →
      ∃ l1, scanDown comp h 0 l = some l1 ∧ l1 ≤ l ∧ rd h l1 ≤ rd h 0 ∧
        ∀ i, l1 < i → i ≤ l → rd h 0 < rd h i := by
  intro l
  induction l with
  | zero =>
    intro hl
    have c : comp (rd h 0) (rd h 0) = false := (comp_eq_false_iff _ _).mpr (le_refl _)
    refine ⟨0, ?_, Nat.le_refl _, le_refl _, fun i h1 h2 => by omega⟩
    simp only [scanDown, getElem?_eq_rd h 0 hl, c]
    rfl
  | succ l ih =>
    intro hl
    simp only [scanDown, getElem?_eq_rd h (l + 1) hl, getElem?_eq_rd h 0 (by omega)]
    by_cases c : comp (rd h 0) (rd h (l + 1)) = true
    · have v := (comp_eq_true_iff _ _).mp c
      rw [if_pos c]
      obtain ⟨l1, e, a1, a2, a3⟩ := ih (by omega)
      refine ⟨l1, e, by omega, a2, ?_⟩
      intro i hi1 hi2
      by_cases ei : i = l + 1
      · subst ei; exact v
      · exact a3 i hi1 (by omega)
    · have v := (comp_eq_false_iff _ _).mp (by simpa using c)
      rw [if_neg c]
      exact ⟨l + 1, rfl, Nat.le_refl _, v, fun i hi1 hi2 => by omega⟩

/-- The routine `__unguarded_partition(first + 1, last, first)`: it returns a cut inside
the range, with no element greater than the pivot before the cut and none less from the
cut on. -/
theorem unguardedPartition_spec :
    ∀ (fuel : Nat) (h : List Int) (f l : Nat), l < fuel → 1 ≤ f → f ≤ l → l ≤ h.length →
      (∀ i, 1 ≤ i → i < f → rd h i ≤ rd h 0) →
      (∀ i, l ≤ i → i < h.length → rd h 0 ≤ rd h i) →
      (∃ t, f ≤ t ∧ t < h.length ∧ rd h 0 ≤ rd h t) →
      ∃ cut h2, unguardedPartition comp 0 fuel h f l = some (cut, h2) ∧
        h2.length = h.length ∧ (∀ x : Int, h2.count x = h.count x) ∧
        1 ≤ cut ∧ cut < h.length ∧
        (∀ i, i < cut → rd h2 i ≤ rd h2 0) ∧
        (∀ i, cut ≤ i → i < h.length → rd h2 0 ≤ rd h2 i) := by
  intro fuel
  induction fuel with
  | zero => intro h f l hf; omega
  | succ fuel ih =>
    intro h f l hf hf1 hfl hln hB hC hD
    obtain ⟨t, ht1, ht2, ht3⟩ := hD
    obtain ⟨f1, e1, a1, a2, a3, a4⟩ := scanUp_spec h t ht2 ht3 (h.length + 1) f ht1 (by omega)
    obtain ⟨l0, el0⟩ : ∃ l0, l = l0 + 1 := ⟨l - 1, by omega⟩
    subst el0
    obtain ⟨l1, e2, b1, b2, b3⟩ := scanDown_spec h l0 (by omega)
    simp only [unguardedPartition, e1, Option.some_bind, e2]
    by_cases c : f1 < l1
    · rw [if_pos c]
      obtain ⟨h1, e3, s1, s2, s3⟩ := iterSwap_spec h f1 l1 (by omega) (by omega)
      simp only [e3, Option.some_bind]
      have r0 : rd h1 0 = rd h 0 := by
        rw [s3 0, if_neg (by omega), if_neg (by omega)]
      obtain ⟨cut, h2, e4, c1, c2, c3, c4, c5, c6⟩ :=
        ih h1 (f1 + 1) l1 (by omega) (by omega) (by omega) (by omega)
          (by
            intro i hi1 hi2
            rw [r0, s3 i]
            by_cases ei : i = f1
            · rw [if_neg (by omega), if_pos ei]; exact b2
            · rw [if_neg (by omega), if_neg ei]
              by_cases hi3 : i < f
              · exact hB i hi1 hi3
              · exact le_of_lt (a4 i (by omega) (by omega)))
          (by
            intro i hi1 hi2
            rw [s1] at hi2
            rw [r0, s3 i]
            by_cases ei : i = l1
            · rw [if_pos ei]; exact a3
            · rw [if_neg ei, if_neg (by omega)]
              by_cases hi3 : l0 + 1 ≤ i
              · exact hC i hi3 hi2
              · exact le_of_lt (b3 i (by omega) (by omega)))
          ⟨l1, by omega, by omega, by rw [r0, s3 l1, if_pos rfl]; exact a3⟩
      refine ⟨cut, h2, e4, c1.trans s1, fun x => (c2 x).trans (s2 x), c3, by omega, c5, ?_⟩
      intro i hi1 hi2
      exact c6 i hi1 (by omega)
    · rw [if_neg c]
      refine ⟨f1, h, rfl, rfl, fun _ => rfl, by omega, by omega, ?_, ?_⟩
      · intro i hi
        by_cases e0 : i = 0
        · subst e0; exact le_refl _
        · by_cases hi3 : i < f
          · exact hB i (by omega) hi3
          · exact le_of_lt (a4 i (by omega) hi)
      · intro i hi1 hi2
        by_cases ei : i = f1
        · subst ei; exact a3
        · by_cases hi3 : l0 + 1 ≤ i
          · exact hC i hi3 hi2
          · exact le_of_lt (b3 i (by omega) (by omega))

/-- The routine `__unguarded_partition_pivot` on a range of at least four elements: it
returns a cut that leaves both sides non-empty, the range is permuted, and no element
before the cut is greater than an element from the cut on. -/
theorem unguardedPartitionPivot_spec (h : List Int) (hn : 4 ≤ h.length) :
    ∃ cut h2, unguardedPartitionPivot comp h = some (cut, h2) ∧ h2.Perm h ∧
      1 ≤ cut ∧ cut < h.length ∧
      (∀ x ∈ h2.take cut, ∀ y ∈ h2.drop cut, x ≤ y) := by
  obtain ⟨h1, e1, l1, c1, _, ⟨t, t1, t2, t3⟩⟩ := moveMedianToFirst_spec h hn
  obtain ⟨cut, h2, e2, l2, c2, a1, a2, a3, a4⟩ :=
    unguardedPartition_spec (h1.length + 1) h1 1 h1.length (by omega) (Nat.le_refl _)
      (by omega) (Nat.le_refl _) (fun i hi1 hi2 => by omega) (fun i hi1 hi2 => by omega)
      ⟨t, t1, by omega, t3⟩
  refine ⟨cut, h2, ?_, ?_, a1, by omega, ?_⟩
  · simp only [unguardedPartitionPivot, e1, Option.some_bind, e2]
  · rw [List.perm_iff_count]
    intro x
    exact (c2 x).trans (c1 x)
  · intro x hx y hy
    obtain ⟨i, i1, i2, i3⟩ := mem_take_rd h2 cut x hx
    obtain ⟨j, j1, j2, j3⟩ := mem_drop_rd h2 cut y hy
    rw [← i3, ← j3]
    exact le_trans (a3 i i1) (a4 j j1 (by omega))

theorem rd_append_left (a b : List Int) (i : Nat) (hi : i < a.length) :
    rd (a ++ b) i = rd a i := by
  rw [rd_eq_getElem (a ++ b) i (by rw [List.length_append]; omega), rd_eq_getElem a i hi,
    List.getElem_append_left hi]

theorem rd_append_length (a : List Int) (v : Int) (r : List Int) :
    rd (a ++ v :: r) a.length = v := by
  rw [rd_eq_getElem (a ++ v :: r) a.length (by rw [List.length_append]; simp),
    List.getElem_append_right (Nat.le_refl _)]
  simp

theorem insertionSort_spec (xs : List Int) :
    ∃ ys, insertionSort comp xs = some ys ∧ ys.Perm xs ∧ ys.Pairwise (fun a b => a ≤ b) := by
  cases xs with
  | nil => exact ⟨[], rfl, List.Perm.refl _, List.Pairwise.nil⟩
  | cons x xs =>
    obtain ⟨ys, h1, h2, h3⟩ := insertionSortLoop_spec xs [x] (List.pairwise_singleton _ _)
    exact ⟨ys, by simpa [insertionSort] using h1, by simpa using h2, h3⟩

/-- The loop of `__unguarded_insertion_sort` behind an ordered range: it returns an
ordered permutation when every element it inserts has an element before it that is not
greater. -/
theorem unguardedInsertionSortLoop_spec (rest : List Int) :
    ∀ pre : List Int, pre.Pairwise (fun a b => a ≤ b) →
      (∀ r1 v r2, rest = r1 ++ v :: r2 → ∃ y, (y ∈ pre ∨ y ∈ r1) ∧ y ≤ v) →
      ∃ ys, unguardedInsertionSortLoop comp pre rest = some ys ∧ ys.Perm (pre ++ rest) ∧
        ys.Pairwise (fun a b => a ≤ b) := by
  induction rest with
  | nil => intro pre hp _; exact ⟨pre, rfl, by simp, hp⟩
  | cons val rest ih =>
    intro pre hp hg
    obtain ⟨y, hy, hyv⟩ := hg [] val rest rfl
    have hy2 : y ∈ pre := by
      rcases hy with h | h
      · exact h
      · simp at h
    obtain ⟨r2, hr2, hperm, hsorted⟩ :=
      unguardedLinearInsert_spec val pre.reverse ⟨y, by simpa using hy2, hyv⟩
    have hperm2 : r2.reverse.Perm (pre ++ [val]) := by
      refine (List.reverse_perm r2).trans (hperm.trans ?_)
      refine ((List.reverse_perm pre).cons val).trans ?_
      exact (List.perm_append_comm : ([val] ++ pre).Perm (pre ++ [val]))
    have hs2 : r2.reverse.Pairwise (fun a b => a ≤ b) := by
      rw [List.pairwise_reverse]
      apply hsorted
      rw [List.pairwise_reverse]
      exact hp
    obtain ⟨ys, hys, hperm3, hs3⟩ := ih r2.reverse hs2 (by
      intro r1 v r3 e
      obtain ⟨z, hz, hzv⟩ := hg (val :: r1) v r3 (by rw [e]; rfl)
      refine ⟨z, ?_, hzv⟩
      rcases hz with h | h
      · exact Or.inl (hperm2.symm.subset (by simp [h]))
      · rcases List.mem_cons.mp h with h2 | h2
        · exact Or.inl (hperm2.symm.subset (by simp [h2]))
        · exact Or.inr h2)
    refine ⟨ys, ?_, ?_, hs3⟩
    · simp only [unguardedInsertionSortLoop, hr2, Option.map_some', Option.some_bind, hys]
    · refine hperm3.trans ?_
      have := hperm2.append_right rest
      simpa using this

/-- The routine `__final_insertion_sort` on a guarded range returns an ordered
permutation. -/
theorem finalInsertionSort_spec (h : List Int) (hg : Guarded h) :
    ∃ ys, finalInsertionSort comp h = some ys ∧ ys.Perm h ∧
      ys.Pairwise (fun a b => a ≤ b) := by
  unfold finalInsertionSort
  by_cases hl : h.length > threshold
  · rw [if_pos hl]
    obtain ⟨pre, e1, p1, s1⟩ := insertionSort_spec (h.take threshold)
    have hlen : (h.take threshold).length = threshold := by
      rw [List.length_take]; omega
    obtain ⟨ys, e2, p2, s2⟩ := unguardedInsertionSortLoop_spec (h.drop threshold) pre s1 (by
      intro r1 v r2 e
      have hsplit : h = (h.take threshold ++ r1) ++ v :: r2 := by
        rw [List.append_assoc, ← e, List.take_append_drop]
      have hil : (h.take threshold ++ r1).length < h.length := by
        conv_rhs => rw [hsplit]
        simp
      have hv : rd h (h.take threshold ++ r1).length = v := by
        have := rd_append_length (h.take threshold ++ r1) v r2
        rw [← hsplit] at this
        exact this
      obtain ⟨j, hj1, hj2⟩ := hg (h.take threshold ++ r1).length
        (by rw [List.length_append, hlen]; omega) hil
      rw [hv] at hj2
      refine ⟨rd h j, ?_, hj2⟩
      have hmem : rd h j ∈ h.take threshold ++ r1 := by
        have : rd h j = rd (h.take threshold ++ r1) j := by
          have := rd_append_left (h.take threshold ++ r1) (v :: r2) j hj1
          rw [← hsplit] at this
          exact this
        rw [this, rd_eq_getElem _ j hj1]
        exact List.getElem_mem _
      rcases List.mem_append.mp hmem with m | m
      · exact Or.inl (p1.symm.subset m)
      · exact Or.inr m)
    refine ⟨ys, ?_, ?_, s2⟩
    · simp only [e1, Option.some_bind, e2]
    · refine p2.trans ?_
      have := p1.append_right (h.drop threshold)
      rw [List.take_append_drop] at this
      exact this
  · rw [if_neg hl]
    exact insertionSort_spec h

/-- The routine `__introsort_loop` returns, with the range permuted and guarded. -/
theorem introsortLoop_spec :
    ∀ (depth : Nat) (h : List Int),
      ∃ h2, introsortLoop comp depth h = some h2 ∧ h2.Perm h ∧ Guarded h2 := by
  intro depth
  induction depth with
  | zero =>
    intro h
    unfold introsortLoop
    by_cases hl : h.length > threshold
    · rw [if_pos hl]
      obtain ⟨zs, e, p, s⟩ := partialSort_spec h
      refine ⟨zs, e, p, ?_⟩
      intro i hi1 hi2
      have hi0 : 0 < i := by unfold threshold at hi1; omega
      refine ⟨i - 1, by omega, ?_⟩
      rw [rd_eq_getElem zs (i - 1) (by omega), rd_eq_getElem zs i hi2]
      exact (List.pairwise_iff_getElem.mp s) (i - 1) i (by omega) hi2 (by omega)
    · rw [if_neg hl]
      exact ⟨h, rfl, List.Perm.refl _, fun i hi1 hi2 => by omega⟩
  | succ depth ih =>
    intro h
    unfold introsortLoop
    by_cases hl : h.length > threshold
    · rw [if_pos hl]
      obtain ⟨cut, h1, e1, p1, c1, c2, c3⟩ :=
        unguardedPartitionPivot_spec h (by unfold threshold at hl; omega)
      obtain ⟨right, e2, p2, _⟩ := ih (h1.drop cut)
      obtain ⟨left, e3, p3, g3⟩ := ih (h1.take cut)
      refine ⟨left ++ right, ?_, ?_, ?_⟩
      · simp only [e1, Option.some_bind, e2, e3]
      · refine ((p3.append p2).trans ?_).trans p1
        rw [List.take_append_drop]
      · have hll : left.length = cut := by
          rw [p3.length_eq, List.length_take, p1.length_eq]; omega
        intro i hi1 hi2
        by_cases hi3 : i < left.length
        · obtain ⟨j, hj1, hj2⟩ := g3 i hi1 hi3
          refine ⟨j, hj1, ?_⟩
          have a : rd (left ++ right) j = rd left j := rd_append_left left right j (by omega)
          have b : rd (left ++ right) i = rd left i := rd_append_left left right i hi3
          rw [a, b]; exact hj2
        · refine ⟨0, by omega, ?_⟩
          have a : rd (left ++ right) 0 ∈ h1.take cut := by
            have : rd (left ++ right) 0 = rd left 0 := rd_append_left left right 0 (by omega)
            rw [this, rd_eq_getElem left 0 (by omega)]
            exact p3.subset (List.getElem_mem _)
          have b : rd (left ++ right) i ∈ h1.drop cut := by
            rw [rd_eq_getElem (left ++ right) i hi2]
            have : (left ++ right)[i] ∈ right := by
              rw [List.getElem_append_right (by omega)]
              exact List.getElem_mem _
            exact p2.subset this
          exact c3 _ a _ b
    · rw [if_neg hl]
      exact ⟨h, rfl, List.Perm.refl _, fun i hi1 hi2 => by omega⟩

/-- The sort never fails, and its result is an ordered permutation of its input. -/
theorem sort_spec (xs : List Int) :
    ∃ ys, sort comp xs = some ys ∧ ys.Perm xs ∧ ys.Pairwise (fun a b => a ≤ b) := by
  unfold sort
  by_cases hl : xs.length ≠ 0
  · rw [if_pos hl]
    obtain ⟨h2, e, p, g⟩ := introsortLoop_spec (lg xs.length * 2) xs
    obtain ⟨ys, e2, p2, s2⟩ := finalInsertionSort_spec h2 g
    exact ⟨ys, by simp only [e, Option.some_bind, e2], p2.trans p, s2⟩
  · rw [if_neg hl]
    have : xs = [] := by
      cases xs with
      | nil => rfl
      | cons a t => simp at hl
    subst this
    exact ⟨[], rfl, List.Perm.refl _, List.Pairwise.nil⟩

/-- The result of the sort is the only ordered permutation of the input: whatever way a
sorting routine reaches an ordered permutation, it reaches this list. -/
theorem sort_eq_of_sorted_perm (xs ys : List Int) (hperm : ys.Perm xs)
    (hsorted : ys.Pairwise (fun a b => a ≤ b)) : sort comp xs = some ys := by
  obtain ⟨zs, h1, h2, h3⟩ := sort_spec xs
  rw [h1]
  congr 1
  exact List.eq_of_perm_of_sorted (h2.trans hperm.symm) h3 hsorted

/-- In a pairwise ordered list every element is at most its right neighbour. -/
theorem adjacent_le_of_pairwise (ys : List Int) (h : ys.Pairwise (fun a b => a ≤ b))
    (i : Nat) (hi : i + 1 < ys.length) :
    ys.get ⟨i, Nat.lt_of_succ_lt hi⟩ ≤ ys.get ⟨i + 1, hi⟩ := by
  exact (List.pairwise_iff_get.mp h) ⟨i, Nat.lt_of_succ_lt hi⟩ ⟨i + 1, hi⟩ (by simp [Fin.lt_def])

/-! ## Decimal formatting and its inverse -/

theorem digitChar_facts :
    ∀ d, d < 10 →
      digitValue (digitChar d) = some d ∧ digitChar d ≠ ' ' ∧ digitChar d ≠ '-' := by
  decide

theorem natDigits_acc (fuel : Nat) :
    ∀ (n : Nat) (acc : List Char), natDigits fuel n acc = natDigits fuel n [] ++ acc := by
  induction fuel with
  | zero => intro n acc; simp [natDigits]
  | succ fuel ih =>
    intro n acc
    simp only [natDigits]
    split
    · simp
    · rw [ih (n / 10) (digitChar (n % 10) :: acc), ih (n / 10) [digitChar (n % 10)]]
      simp

theorem natDigits_digits (fuel : Nat) :
    ∀ (n : Nat), ∀ c ∈ natDigits fuel n [], ∃ d, d < 10 ∧ c = digitChar d := by
  induction fuel with
  | zero => intro n c hc; simp [natDigits] at hc
  | succ fuel ih =>
    intro n c hc
    simp only [natDigits] at hc
    split at hc
    · simp only [List.mem_singleton] at hc
      exact ⟨n % 10, Nat.mod_lt _ (by decide), hc⟩
    · rw [natDigits_acc] at hc
      rcases List.mem_append.mp hc with h | h
      · exact ih _ c h
      · simp only [List.mem_singleton] at h
        exact ⟨n % 10, Nat.mod_lt _ (by decide), h⟩

theorem natDigits_ne_nil (fuel n : Nat) : natDigits (fuel + 1) n [] ≠ [] := by
  simp only [natDigits]
  split
  · simp
  · rw [natDigits_acc]; simp

theorem parseNatAux_append (l : List Char) :
    ∀ (a : Nat) (c : Char),
      parseNatAux a (l ++ [c]) =
        (parseNatAux a l).bind (fun v => (digitValue c).map (fun d => 10 * v + d)) := by
  induction l with
  | nil =>
    intro a c
    simp only [List.nil_append, parseNatAux]
    cases digitValue c <;> simp
  | cons x l ih =>
    intro a c
    simp only [List.cons_append, parseNatAux]
    cases digitValue x with
    | none => simp
    | some d => exact ih _ c

theorem parseNatAux_natDigits (fuel : Nat) :
    ∀ n, n < fuel → parseNatAux 0 (natDigits fuel n []) = some n := by
  induction fuel with
  | zero => intro n h; omega
  | succ fuel ih =>
    intro n h
    have hd := (digitChar_facts (n % 10) (Nat.mod_lt _ (by decide))).1
    simp only [natDigits]
    split
    · rename_i h0
      simp only [parseNatAux, hd]
      congr 1
      omega
    · rename_i h0
      rw [natDigits_acc, parseNatAux_append, ih (n / 10) (by omega), hd]
      simp only [Option.some_bind, Option.map_some']
      congr 1
      omega

theorem parseNat_formatNat (n : Nat) : parseNat (formatNat n) = some n := by
  have h := parseNatAux_natDigits (n + 1) n (Nat.lt_succ_self n)
  have hne := natDigits_ne_nil n n
  unfold formatNat
  cases hl : natDigits (n + 1) n [] with
  | nil => exact absurd hl hne
  | cons c cs => rw [hl] at h; simpa [parseNat] using h

theorem formatNat_head_ne_minus (n : Nat) : ∀ c cs, formatNat n = c :: cs → c ≠ '-' := by
  intro c cs h
  have hc : c ∈ natDigits (n + 1) n [] := by
    have : c ∈ formatNat n := by rw [h]; simp
    exact this
  obtain ⟨d, hd, rfl⟩ := natDigits_digits _ _ c hc
  exact (digitChar_facts d hd).2.2

/-- Parsing the text of `operator<<(int)` gives the integer back. -/
theorem parseInt_formatInt (v : Int) : parseInt (formatInt v).data = some v := by
  unfold formatInt
  split
  · rename_i hneg
    have h1 : (v.natAbs : Int) = -v := Int.ofNat_natAbs_of_nonpos (by omega)
    simp only [parseInt, parseNat_formatNat, Option.map_some', h1, neg_neg]
  · rename_i hpos
    have hp := parseNat_formatNat v.natAbs
    cases hl : formatNat v.natAbs with
    | nil => rw [hl] at hp; simp [parseNat] at hp
    | cons c cs =>
      have hne := formatNat_head_ne_minus v.natAbs c cs hl
      rw [hl] at hp
      have : parseInt (c :: cs) = Option.map (fun (n : Nat) => (n : Int)) (parseNat (c :: cs)) := by
        unfold parseInt
        split
        · rename_i heq
          simp only [List.cons.injEq] at heq
          exact absurd heq.1 hne
        · rfl
      have h1 : (v.natAbs : Int) = v := Int.natAbs_of_nonneg (by omega)
      simp only [this, hp, Option.map_some', h1]

theorem natDigits_eq_toDigitsCore (fuel : Nat) :
    ∀ (n : Nat) (acc : List Char), natDigits fuel n acc = Nat.toDigitsCore 10 fuel n acc := by
  have hd : ∀ d, d < 10 → digitChar d = Nat.digitChar d := by decide
  induction fuel with
  | zero => intro n acc; rfl
  | succ fuel ih =>
    intro n acc
    simp only [natDigits, Nat.toDigitsCore, hd (n % 10) (Nat.mod_lt _ (by decide)), ih]

/-- The text of `formatInt` is the usual decimal rendering of an integer. -/
theorem formatInt_eq_toString (v : Int) : formatInt v = toString v := by
  have hnat : ∀ n : Nat, String.mk (formatNat n) = toString n := by
    intro n
    simp only [formatNat, natDigits_eq_toDigitsCore]
    rfl
  cases v with
  | ofNat m =>
    have : ¬ (Int.ofNat m < 0) := by simp
    simp only [formatInt, this, if_false, Int.natAbs_ofNat, hnat]
    rfl
  | negSucc m =>
    have : Int.negSucc m < 0 := Int.negSucc_lt_zero m
    simp only [formatInt, this, if_true, Int.natAbs_negSucc]
    have h2 := hnat (m + 1)
    show String.mk ('-' :: formatNat (m + 1)) = "-" ++ toString (m + 1)
    rw [← h2]
    rfl

theorem formatInt_ne_nil (v : Int) : (formatInt v).data ≠ [] := by
  unfold formatInt
  split
  · simp
  · exact natDigits_ne_nil _ _

theorem formatInt_no_space (v : Int) : ∀ c ∈ (formatInt v).data, c ≠ ' ' := by
  have hnat : ∀ c ∈ formatNat v.natAbs, c ≠ ' ' := by
    intro c hc
    obtain ⟨d, hd, rfl⟩ := natDigits_digits _ _ c hc
    exact (digitChar_facts d hd).2.1
  unfold formatInt
  split
  · intro c hc
    rcases List.mem_cons.mp hc with h | h
    · subst h; decide
    · exact hnat c h
  · exact hnat

/-! ## The print step -/

theorem forEach_printLambda (xs : List Int) :
    ∀ cout : OStream,
      forEach xs printLambda cout = cout ++ (xs.map (fun n => [formatInt n, " "])).flatten := by
  induction xs with
  | nil => intro cout; simp [forEach]
  | cons x xs ih =>
    intro cout
    have h := ih (printLambda cout x)
    simp only [forEach] at h
    simp only [forEach, List.foldl_cons, h]
    simp [printLambda, insertStr, insertInt]

theorem print_eq (xs : List Int) :
    print xs = (xs.map (fun n => [formatInt n, " "])).flatten := by
  simp [print, forEach_printLambda]

theorem written_print_data (xs : List Int) :
    (written (print xs)).data = (xs.map (fun n => (formatInt n).data ++ [' '])).flatten := by
  rw [print_eq, written, String.data_join]
  induction xs with
  | nil => rfl
  | cons x xs ih =>
    simp only [List.map_cons, List.flatten_cons, List.map_append, List.flatten_append, ih]
    simp

theorem written_print (xs : List Int) :
    written (print xs) = String.join (xs.map (fun n => formatInt n ++ " ")) := by
  apply String.ext
  rw [written_print_data, String.data_join]
  congr 1
  simp [List.map_map, Function.comp_def]

theorem splitOnSpace_word (w : List Char) (hw : ∀ c ∈ w, c ≠ ' ') (rest : List Char) :
    splitOnSpace (w ++ ' ' :: rest) = w :: splitOnSpace rest := by
  induction w with
  | nil => simp [splitOnSpace]
  | cons c w ih =>
    have hc : c ≠ ' ' := hw c (by simp)
    have ih2 := ih (fun x hx => hw x (by simp [hx]))
    simp only [List.cons_append, splitOnSpace, hc, if_false, List.append_eq, ih2]

theorem tokens_written_print (xs : List Int) :
    tokens (written (print xs)) = xs.map (fun n => (formatInt n).data) := by
  unfold tokens
  rw [written_print_data]
  induction xs with
  | nil => simp [splitOnSpace]
  | cons x xs ih =>
    simp only [List.map_cons, List.flatten_cons, List.append_assoc, List.singleton_append]
    rw [splitOnSpace_word _ (formatInt_no_space x)]
    rw [List.filter_cons_of_pos (by simpa using formatInt_ne_nil x), ih]

theorem parseAll_format (xs : List Int) :
    parseAll (xs.map (fun n => (formatInt n).data)) = some xs := by
  induction xs with
  | nil => rfl
  | cons x xs ih => simp only [List.map_cons, parseAll, parseInt_formatInt, ih]

theorem readInts_written_print (xs : List Int) : readInts (written (print xs)) = some xs := by
  rw [readInts, tokens_written_print, parseAll_format]

theorem print_length (xs : List Int) : (print xs).length = 2 * xs.length := by
  rw [print_eq]
  induction xs with
  | nil => rfl
  | cons x xs ih =>
    simp only [List.map_cons, List.flatten_cons, List.length_append, ih, List.length_cons,
      List.length_nil]
    omega

/-! ## The run of `main` -/

theorem main_eq :
    main = some { sorted := sortedNumbers, cout := print sortedNumbers, exitCode := 0 } := by
  decide

theorem sortedNumbers_pairwise : sortedNumbers.Pairwise (fun a b => a ≤ b) := by
  decide

/-! ## The claims -/

/-- C1: for the hardcoded sequence `[3,1,4,1,5,9,2,6,5,3,5]` the text written to standard
output is exactly `"1 1 2 3 3 4 5 5 5 6 9 "`: each number followed by one space, the last
one included, and nothing else. -/
theorem C1_output_exact :
    numbers = [3, 1, 4, 1, 5, 9, 2, 6, 5, 3, 5] ∧
      output = some "1 1 2 3 3 4 5 5 5 6 9 " := by
  decide

/-- C2: after the sort step the sequence is non-decreasing, and the values the program
prints are that sequence, so every printed value is at most the value printed right
after it. -/
theorem C2_printed_nondecreasing :
    ∃ r vals, main = some r ∧ readInts (written r.cout) = some vals ∧ vals = r.sorted ∧
      ∀ (i : Nat) (h : i + 1 < vals.length), vals[i] ≤ vals[i + 1] := by
  refine ⟨_, sortedNumbers, main_eq, readInts_written_print sortedNumbers, rfl, ?_⟩
  intro i h
  exact adjacent_le_of_pairwise sortedNumbers sortedNumbers_pairwise i h

/-- C3: the integers the program prints are a permutation of the literal
`[3,1,4,1,5,9,2,6,5,3,5]`: the two multisets are equal, every value has the same count
in both, the counts are 1 twice, 2 once, 3 twice, 4 once, 5 three times, 6 once, 9 once,
and no other value is printed. -/
theorem C3_printed_permutation :
    ∃ vals, printed = some vals ∧ vals.Perm numbers ∧
      (vals : Multiset Int) = (numbers : Multiset Int) ∧
      (∀ v : Int, vals.count v = numbers.count v) ∧
      vals.count 1 = 2 ∧ vals.count 2 = 1 ∧ vals.count 3 = 2 ∧ vals.count 4 = 1 ∧
      vals.count 5 = 3 ∧ vals.count 6 = 1 ∧ vals.count 9 = 1 ∧
      (∀ v : Int, v ∉ [1, 2, 3, 4, 5, 6, 9] → vals.count v = 0) := by
  have hperm : sortedNumbers.Perm numbers := by decide
  refine ⟨sortedNumbers, by decide, hperm, Multiset.coe_eq_coe.mpr hperm,
    fun v => hperm.count_eq v, by decide, by decide, by decide, by decide, by decide,
    by decide, by decide, ?_⟩
  intro v hv
  apply List.count_eq_zero_of_not_mem
  intro hmem
  apply hv
  simp only [sortedNumbers, List.mem_cons, List.mem_singleton, List.not_mem_nil,
    or_false] at hmem ⊢
  tauto

/-- C4: for every finite sequence of integers the sort with the comparator `x < y`
completes, and its result has `a[i] <= a[i+1]` for every adjacent pair and is a
permutation of the input. -/
theorem C4_sort_correct (xs : List Int) :
    ∃ ys, sort comp xs = some ys ∧
      (∀ (i : Nat) (h : i + 1 < ys.length), ys[i] ≤ ys[i + 1]) ∧ ys.Perm xs := by
  obtain ⟨ys, h1, h2, h3⟩ := sort_spec xs
  exact ⟨ys, h1, fun i h => adjacent_le_of_pairwise ys h3 i h, h2⟩

/-- C5: for every sequence of integers, negative ones included, the text the print step
writes is the concatenation, in order, of each element's decimal text followed by one
space; splitting that text on spaces and parsing each non-empty piece as a decimal
integer gives back the sequence. -/
theorem C5_print_roundtrip (xs : List Int) :
    written (print xs) = String.join (xs.map (fun n => formatInt n ++ " ")) ∧
      (∀ n : Int, formatInt n = toString n ∧ parseInt (formatInt n).data = some n) ∧
      readInts (written (print xs)) = some xs :=
  ⟨written_print xs, fun n => ⟨formatInt_eq_toString n, parseInt_formatInt n⟩,
    readInts_written_print xs⟩

/-- C6: exactly 11 integers are printed: the output holds 11 decimal numbers, as many as
the hardcoded sequence and as the sequence after the sort. -/
theorem C6_eleven_printed :
    ∃ r vals, main = some r ∧ readInts (written r.cout) = some vals ∧
      vals.length = 11 ∧ (tokens (written r.cout)).length = 11 ∧
      numbers.length = 11 ∧ r.sorted.length = numbers.length := by
  refine ⟨_, sortedNumbers, main_eq, readInts_written_print sortedNumbers, by decide,
    ?_, by decide, by decide⟩
  rw [tokens_written_print]
  decide

/-- C7: the output is the 11 integers, each followed by one space, and nothing else: every
character is a decimal digit or a space, there are exactly 11 spaces, no two spaces are
adjacent, the last character is a space, and there is no newline. -/
theorem C7_output_format :
    ∃ r out, main = some r ∧ output = some out ∧
      out = String.join (r.sorted.map (fun n => formatInt n ++ " ")) ∧
      r.sorted.length = 11 ∧
      (∀ c ∈ out.data, c.isDigit = true ∨ c = ' ') ∧
      out.data.count ' ' = 11 ∧
      (∀ (i : Nat) (h : i + 1 < out.data.length),
        ¬ (out.data[i] = ' ' ∧ out.data[i + 1] = ' ')) ∧
      out.data.getLast? = some ' ' ∧
      '\n' ∉ out.data := by
  refine ⟨_, "1 1 2 3 3 4 5 5 5 6 9 ", main_eq, by decide, by decide, by decide, by decide,
    by decide, ?_, by decide, by decide⟩
  have hchain : List.Chain' (fun a b => ¬ (a = ' ' ∧ b = ' '))
      ['1', ' ', '1', ' ', '2', ' ', '3', ' ', '3', ' ', '4', ' ', '5', ' ', '5', ' ', '5', ' ',
        '6', ' ', '9', ' '] := by
    simp only [List.chain'_cons, List.chain'_singleton, and_true]
    decide
  intro i h
  have h2 : i + 1 < 22 := h
  have h3 : i < List.length ['1', ' ', '1', ' ', '2', ' ', '3', ' ', '3', ' ', '4', ' ', '5',
      ' ', '5', ' ', '5', ' ', '6', ' ', '9', ' '] - 1 := by
    simp only [List.length_cons, List.length_nil]; omega
  exact List.chain'_iff_get.mp hchain i h3

/-- C8: the program has no failure path: in every environment the run completes the sort
and the print and ends with exit code 0. -/
theorem C8_no_failure (env : Environment) :
    ∃ r, run env = some r ∧ sort comp numbers = some r.sorted ∧
      r.cout = print r.sorted ∧ r.exitCode = 0 := by
  refine ⟨_, main_eq, by decide, rfl, rfl⟩

/-- C9: any two runs, whatever their arguments and environment variables, end in the same
result and write the same bytes, namely `"1 1 2 3 3 4 5 5 5 6 9 "`. -/
theorem C9_runs_identical (env1 env2 : Environment) :
    run env1 = run env2 ∧
      (run env1).map (fun r => written r.cout) = (run env2).map (fun r => written r.cout) ∧
      (run env1).map (fun r => written r.cout) = some "1 1 2 3 3 4 5 5 5 6 9 " := by
  refine ⟨rfl, rfl, ?_⟩
  show output = _
  decide

/-- C11: the comparator `comp x y = (x < y)` is a strict weak ordering on the integers:
it is irreflexive, asymmetric and transitive, and being incomparable under it (neither
`comp x y` nor `comp y x`) is transitive; with it the sort is defined on every input. -/
theorem C11_comp_strict_weak_order (x y z : Int) :
    comp x x = false ∧
      (comp x y = true → comp y x = false) ∧
      (comp x y = true ∧ comp y z = true → comp x z = true) ∧
      ((comp x y = false ∧ comp y x = false) ∧ (comp y z = false ∧ comp z y = false) →
        comp x z = false ∧ comp z x = false) ∧
      (∀ xs : List Int, (sort comp xs).isSome = true) := by
  refine ⟨?_, ?_, ?_, ?_, ?_⟩
  · exact (comp_eq_false_iff x x).mpr (le_refl x)
  · intro h
    have h1 := (comp_eq_true_iff x y).mp h
    exact (comp_eq_false_iff y x).mpr (by omega)
  · rintro ⟨h1, h2⟩
    have h3 := (comp_eq_true_iff x y).mp h1
    have h4 := (comp_eq_true_iff y z).mp h2
    exact (comp_eq_true_iff x z).mpr (by omega)
  · rintro ⟨⟨h1, h2⟩, h3, h4⟩
    have e1 := (comp_eq_false_iff x y).mp h1
    have e2 := (comp_eq_false_iff y x).mp h2
    have e3 := (comp_eq_false_iff y z).mp h3
    have e4 := (comp_eq_false_iff z y).mp h4
    exact ⟨(comp_eq_false_iff x z).mpr (by omega), (comp_eq_false_iff z x).mpr (by omega)⟩
  · intro xs
    obtain ⟨ys, h, _, _⟩ := sort_spec xs
    rw [h]
    rfl

/-- C12: for every sequence that is a permutation of `[3,1,4,1,5,9,2,6,5,3,5]`, sorting
and printing it gives the output of the program itself; any ordered arrangement of such a
sequence, however equal values are placed, prints that same text; and sorting the already
sorted sequence leaves it unchanged. -/
theorem C12_output_order_independent (xs : List Int) (hperm : xs.Perm numbers) :
    (sort comp xs).map (fun s => written (forEach s printLambda [])) = output ∧
      (sort comp xs).map (fun s => written (forEach s printLambda [])) =
        some "1 1 2 3 3 4 5 5 5 6 9 " ∧
      (∀ ys : List Int, ys.Perm xs → ys.Pairwise (fun a b => a ≤ b) →
        written (forEach ys printLambda []) = "1 1 2 3 3 4 5 5 5 6 9 ") ∧
      sort comp sortedNumbers = some sortedNumbers := by
  have hsn : sortedNumbers.Perm numbers := by decide
  have hout : written (forEach sortedNumbers printLambda []) = "1 1 2 3 3 4 5 5 5 6 9 " := by
    decide
  have hsort : sort comp xs = some sortedNumbers :=
    sort_eq_of_sorted_perm xs sortedNumbers (hsn.trans hperm.symm) sortedNumbers_pairwise
  have houtput : output = some "1 1 2 3 3 4 5 5 5 6 9 " := by decide
  refine ⟨?_, ?_, ?_, ?_⟩
  · rw [hsort, houtput, Option.map_some', hout]
  · rw [hsort, Option.map_some', hout]
  · intro ys hys hsorted
    have heq : ys = sortedNumbers :=
      List.eq_of_perm_of_sorted (hys.trans (hperm.trans hsn.symm)) hsorted
        sortedNumbers_pairwise
    rw [heq, hout]
  · exact sort_eq_of_sorted_perm sortedNumbers sortedNumbers (List.Perm.refl _)
      sortedNumbers_pairwise

/-- C12 at the literal written backwards, `[5,3,5,6,2,9,5,1,4,1,3]`: it is a permutation
of the literal, and sorting and printing it gives the program's output. -/
theorem C12_output_order_independent_witness :
    [5, 3, 5, 6, 2, 9, 5, 1, 4, 1, 3].Perm numbers ∧
      (sort comp [5, 3, 5, 6, 2, 9, 5, 1, 4, 1, 3]).map
        (fun s => written (forEach s printLambda [])) = output :=
  ⟨by decide, (C12_output_order_independent [5, 3, 5, 6, 2, 9, 5, 1, 4, 1, 3] (by decide)).1⟩

end LearnCpp

